import Mathlib

/-!
# ChumPackagesModel: the filtered, searched and sorted package view

A shallow embedding of `src/chumpackagesmodel.cpp` (`ChumPackagesModel::reset`,
`ChumPackagesModel::updatePackage` and the five configuration setters) together with the
properties proved about it.

* A `QString` is its sequence of UTF-16 code units.
* Qt's Unicode routines (`normalized`, `toLower`, `toCaseFolded`, the case folding of
  `QStringMatcher`) and `std::sort` are library code: they are parameters
  (`QtText`, `StdSort`), and `basicQt`, `insertionSorter` are concrete instances on which
  the definitions can be evaluated.
* The registry singleton `Chum::instance()` is passed explicitly as a `Chum` value.
* Emitted Qt signals are returned as a list next to the new model state.
-/

namespace ChumGui

/-! ## Strings -/

/-- A UTF-16 code unit (`QChar`). -/
abbrev QChar := Nat

/-- A `QString`, as its sequence of UTF-16 code units. -/
abbrev QString := List Nat

/-- The `QString::operator<` of Qt: lexicographic comparison of the code units. -/
def qstringLess : QString → QString → Bool
  | [], [] => false
  | [], _ :: _ => true
  | _ :: _, [] => false
  | a :: as, b :: bs =>
    if a < b then true else if b < a then false else qstringLess as bs

/-- The `QString::split(sep)` of Qt with the default `KeepEmptyParts`: the pieces between
the separators, empty pieces included (the empty string gives one empty piece). -/
def split (sep : QChar) : QString → List QString
  | [] => [[]]
  | c :: cs =>
    if c = sep then [] :: split sep cs
    else
      match split sep cs with
      | [] => [[c]]
      | t :: ts => (c :: t) :: ts

/-- The `QString::split(sep, QString::SkipEmptyParts)` of Qt. -/
def splitSkipEmptyParts (sep : QChar) (s : QString) : List QString :=
  (split sep s).filter (fun t => !t.isEmpty)

/-- The `QStringList::join(sep)` of Qt. -/
def join (sep : QChar) : List QString → QString
  | [] => []
  | [s] => s
  | s :: t :: rest => s ++ sep :: join sep (t :: rest)

/-- The `QStringList::toSet()` of Qt; a `QSet<QString>` is kept as a duplicate-free list. -/
def toSet (l : List QString) : List QString := l.dedup

/-- The `QSet::intersects` of Qt: the two sets have a common element. -/
def intersects (a b : List QString) : Bool :=
  a.any (fun c => b.contains c)

/-- The `QList::indexOf` of Qt: position of the first occurrence, `-1` when absent. -/
def indexOf : List QString → QString → Int
  | [], _ => -1
  | x :: xs, v =>
    if x = v then 0
    else
      let i := indexOf xs v
      if i < 0 then -1 else i + 1

/-! ## Library parameters -/

/-- The Unicode routines of Qt used by the model. -/
structure QtText where
  /-- The `QString::normalized(QString::NormalizationForm_KC)` routine. -/
  normalizedKC : QString → QString
  /-- The `QString::toLower()` routine. -/
  toLower : QString → QString
  /-- The `QString::toCaseFolded()` routine. -/
  toCaseFolded : QString → QString
  /-- The case folding `QStringMatcher` applies to one code unit when it compares with
  `Qt::CaseInsensitive`; the first argument is the preceding code unit of the same string
  (Qt folds a low surrogate through the code point it forms with a preceding high one). -/
  foldCase : Option QChar → QChar → Nat

/-- The code units of a string as `QStringMatcher` compares them under
`Qt::CaseInsensitive`. -/
def foldUnits (qt : QtText) : Option QChar → QString → List Nat
  | _, [] => []
  | prev, c :: cs => qt.foldCase prev c :: foldUnits qt (some c) cs

/-- Whether `pat` is an initial segment of `txt`. -/
def startsWith : List Nat → List Nat → Bool
  | [], _ => true
  | _ :: _, [] => false
  | a :: as, b :: bs => a == b && startsWith as bs

/-- Scan for the first position at which `pat` starts in `txt`; `i` is the position of the
head of `txt` in the whole text. -/
def indexInFrom (pat : List Nat) : List Nat → Int → Int
  | [], i => if pat.isEmpty then i else -1
  | c :: cs, i => if startsWith pat (c :: cs) then i else indexInFrom pat cs (i + 1)

/-- The `QStringMatcher::indexIn(txt)` of a matcher built with `Qt::CaseInsensitive` and
pattern `pattern`: the first position where the pattern occurs in `txt`, both compared
through the case folding, or `-1`. -/
def indexIn (qt : QtText) (pattern txt : QString) : Int :=
  indexInFrom (foldUnits qt none pattern) (foldUnits qt none txt) 0

/-- What `std::sort` requires of its comparison: a strict weak ordering. -/
structure StrictWeakOrdering {α : Type} (comp : α → α → Bool) : Prop where
  irrefl : ∀ a, comp a a = false
  trans : ∀ a b c, comp a b = true → comp b c = true → comp a c = true
  incomp_trans : ∀ a b c, comp a b = false → comp b a = false →
    comp b c = false → comp c b = false → comp a c = false ∧ comp c a = false

/-- The `std::sort` of the C++ library, by its contract: the result is a rearrangement of
the input and, for a strict weak ordering, no later element compares less than an earlier
one. The order of equivalent elements is left open. -/
structure StdSort (α : Type) where
  sort : (α → α → Bool) → List α → List α
  perm : ∀ comp l, (sort comp l).Perm l
  sorted : ∀ comp l, StrictWeakOrdering comp →
    (sort comp l).Pairwise (fun a b => comp b a = false)

/-! ## Data model -/

/-- Modelled from the spec: the enumeration `ChumPackage::Type` is declared in
`chumpackage.h`, which is absent; the source names `PackageApplicationConsole` and
`PackageApplicationDesktop`, the spec lists the kinds ConsoleApplication,
DesktopApplication, Library and Other. -/
inductive PackageType where
  | PackageApplicationConsole
  | PackageApplicationDesktop
  | PackageLibrary
  | PackageOther
  deriving DecidableEq, Repr

/-- The `ChumPackage::Role` tags carried by a change notification: the roles named in
`chumpackagesmodel.cpp`; `PackageOtherRole` stands for every further value of the
enumeration (declared in the absent `chumpackage.h`). -/
inductive Role where
  | PackageIdRole
  | PackageCategoriesRole
  | PackageDescriptionRole
  | PackageDeveloperRole
  | PackageIconRole
  | PackageInstalledRole
  | PackageInstalledVersionRole
  | PackageNameRole
  | PackagePackagerRole
  | PackageStarsCountRole
  | PackageSummaryRole
  | PackageTypeRole
  | PackageUpdateAvailableRole
  | PackageRefreshRole
  | PackageOtherRole (tag : Nat)
  deriving DecidableEq, Repr

/-- A package record (`ChumPackage`), with the accessors the model reads. -/
structure ChumPackage where
  id : QString
  name : QString
  summary : QString
  description : QString
  developer : QString
  packager : QString
  categories : List QString
  type : PackageType
  installed : Bool
  installedVersion : QString
  starsCount : Int
  updateAvailable : Bool
  icon : QString
  deriving DecidableEq, Repr

/-- The registry singleton `Chum::instance()`: its records in the order `packages()`
enumerates them, and its `busy()` flag. -/
structure Chum where
  packages : List ChumPackage
  busy : Bool
  deriving DecidableEq, Repr

/-- Modelled from the spec: `Chum::package(id)` is defined in the absent `chum.cpp`; the
spec has it look up a record by id. -/
def Chum.package (chum : Chum) (id : QString) : Option ChumPackage :=
  chum.packages.find? (fun p => p.id == id)

/-- The member variables of `ChumPackagesModel`. -/
structure ChumPackagesModel where
  m_packages : List QString
  m_postpone_loading : Bool
  m_filter_applications_only : Bool
  m_filter_installed_only : Bool
  m_filter_updates_only : Bool
  m_search : QString
  m_show_category : List QString
  deriving DecidableEq, Repr

/-- The Qt signals the model emits. `dataChanged first last` carries the rows of the two
model indexes. -/
inductive Signal where
  | modelAboutToBeReset
  | modelReset
  | dataChanged (first last : Int)
  | filterApplicationsOnlyChanged
  | filterInstalledOnlyChanged
  | filterUpdatesOnlyChanged
  | searchChanged
  | showCategoryChanged
  deriving DecidableEq, Repr

/-! ## `ChumPackagesModel::reset` -/

/-- The text the search looks into (line 94 to 99): name, summary, the categories joined
by a space, developer and description, joined by a newline, normalised to NFKC and
lowercased. -/
def searchText (qt : QtText) (p : ChumPackage) : QString :=
  qt.toLower (qt.normalizedKC
    (join 10 [p.name, p.summary, join 32 p.categories, p.developer, p.description]))

/-- The value of `found` after the loop over the terms of the query (line 92 and 136 to
140): every piece of `search` between spaces, normalised and lowercased, is set as the
pattern of the case-insensitive matcher and looked for in the text. -/
def searchFound (qt : QtText) (search : QString) (p : ChumPackage) : Bool :=
  (splitSkipEmptyParts 32 search).foldl
    (fun found query =>
      found && (indexIn qt (qt.toLower (qt.normalizedKC query)) (searchText qt p) != -1))
    true

/-- The body of the filter loop of `reset` (line 80 to 162): `true` when the package
reaches `packages.push_back(p)`, `false` when one of the `continue` statements is taken. -/
def filterAccepts (qt : QtText) (m : ChumPackagesModel) (p : ChumPackage) : Bool :=
  if m.m_filter_applications_only &&
      p.type != PackageType.PackageApplicationConsole &&
      p.type != PackageType.PackageApplicationDesktop then false
  else if m.m_filter_installed_only && !p.installed then false
  else if m.m_filter_updates_only && !p.updateAvailable then false
  else if !m.m_show_category.isEmpty &&
      !intersects m.m_show_category (toSet p.categories) then false
  else if !m.m_search.isEmpty then
    if !searchFound qt m.m_search p then false else true
  else true

/-- The comparison handed to `std::sort` (line 167 to 169). -/
def nameLess (qt : QtText) (a b : ChumPackage) : Bool :=
  qstringLess (qt.toCaseFolded a.name) (qt.toCaseFolded b.name)

/-- The local list `packages` of `reset` after the sort (line 74 to 169). -/
def sortedPackages (qt : QtText) (srt : StdSort ChumPackage) (chum : Chum)
    (m : ChumPackagesModel) : List ChumPackage :=
  srt.sort (nameLess qt) (chum.packages.filter (filterAccepts qt m))

/-- The function `ChumPackagesModel::reset`: nothing while loading is postponed; otherwise
`m_packages` is replaced by the ids of the filtered and sorted packages, between
`beginResetModel()` and `endResetModel()`. The `qDebug` output and the regular-expression
probes of line 142 to 157 only log and are left out; so are the signal connections of
line 78 and 163, which are not part of the state kept here. -/
def reset (qt : QtText) (srt : StdSort ChumPackage) (chum : Chum)
    (m : ChumPackagesModel) : ChumPackagesModel × List Signal :=
  if m.m_postpone_loading then (m, [])
  else
    ({ m with m_packages := (sortedPackages qt srt chum m).map (fun p => p.id) },
      [Signal.modelAboutToBeReset, Signal.modelReset])

/-! ## `ChumPackagesModel::updatePackage` -/

/-- The list `roles` of `updatePackage` (line 180 to 190). -/
def roles : List Role :=
  [Role.PackageRefreshRole, Role.PackageIconRole, Role.PackageIdRole, Role.PackageNameRole,
   Role.PackageStarsCountRole, Role.PackageTypeRole, Role.PackageInstalledRole,
   Role.PackageInstalledVersionRole, Role.PackageUpdateAvailableRole]

/-- The list `search_roles` of `updatePackage` (line 192 to 199). -/
def search_roles : List Role :=
  [Role.PackageNameRole, Role.PackageSummaryRole, Role.PackageCategoriesRole,
   Role.PackageDeveloperRole, Role.PackageDescriptionRole, Role.PackagePackagerRole]

/-- The list `sort_roles` of `updatePackage` (line 201 to 203). -/
def sort_roles : List Role :=
  [Role.PackageNameRole]

/-- The value of `filter_or_order_may_change` at line 234. -/
def filter_or_order_may_change (m : ChumPackagesModel) (role : Role) : Bool :=
  let f := false
  let f := if !m.m_search.isEmpty && search_roles.contains role then true else f
  let f := if m.m_filter_applications_only && role == Role.PackageTypeRole then true else f
  let f := if m.m_filter_installed_only && role == Role.PackageInstalledRole then true else f
  let f := if m.m_filter_updates_only && role == Role.PackageUpdateAvailableRole
    then true else f
  let f := if !m.m_show_category.isEmpty && role == Role.PackageCategoriesRole
    then true else f
  let f := if sort_roles.contains role then true else f
  f

/-- The function `ChumPackagesModel::updatePackage`. -/
def updatePackage (qt : QtText) (srt : StdSort ChumPackage) (chum : Chum)
    (m : ChumPackagesModel) (packageId : QString) (role : Role) :
    ChumPackagesModel × List Signal :=
  if !roles.contains role || (role == Role.PackageRefreshRole && chum.busy) then (m, [])
  else if role == Role.PackageRefreshRole then reset qt srt chum m
  else if filter_or_order_may_change m role then reset qt srt chum m
  else
    let i := indexOf m.m_packages packageId
    if i < 0 then (m, [])
    else (m, [Signal.dataChanged i i])

/-! ## The configuration setters -/

/-- The function `ChumPackagesModel::setFilterApplicationsOnly` (line 245 to 249). -/
def setFilterApplicationsOnly (qt : QtText) (srt : StdSort ChumPackage) (chum : Chum)
    (m : ChumPackagesModel) (filter : Bool) : ChumPackagesModel × List Signal :=
  let m1 := { m with m_filter_applications_only := filter }
  let r := reset qt srt chum m1
  (r.1, Signal.filterApplicationsOnlyChanged :: r.2)

/-- The function `ChumPackagesModel::setFilterInstalledOnly` (line 251 to 255). -/
def setFilterInstalledOnly (qt : QtText) (srt : StdSort ChumPackage) (chum : Chum)
    (m : ChumPackagesModel) (filter : Bool) : ChumPackagesModel × List Signal :=
  let m1 := { m with m_filter_installed_only := filter }
  let r := reset qt srt chum m1
  (r.1, Signal.filterInstalledOnlyChanged :: r.2)

/-- The function `ChumPackagesModel::setFilterUpdatesOnly` (line 257 to 261). -/
def setFilterUpdatesOnly (qt : QtText) (srt : StdSort ChumPackage) (chum : Chum)
    (m : ChumPackagesModel) (filter : Bool) : ChumPackagesModel × List Signal :=
  let m1 := { m with m_filter_updates_only := filter }
  let r := reset qt srt chum m1
  (r.1, Signal.filterUpdatesOnlyChanged :: r.2)

/-- The function `ChumPackagesModel::setSearch` (line 263 to 268). -/
def setSearch (qt : QtText) (srt : StdSort ChumPackage) (chum : Chum)
    (m : ChumPackagesModel) (search : QString) : ChumPackagesModel × List Signal :=
  if search = m.m_search then (m, [])
  else
    let m1 := { m with m_search := search }
    let r := reset qt srt chum m1
    (r.1, Signal.searchChanged :: r.2)

/-- The function `ChumPackagesModel::setShowCategory` (line 270 to 275): the string is
split at every `;` (code unit 59) and the pieces are stored as a set. -/
def setShowCategory (qt : QtText) (srt : StdSort ChumPackage) (chum : Chum)
    (m : ChumPackagesModel) (category : QString) : ChumPackagesModel × List Signal :=
  let c := split 59 category
  let m1 := { m with m_show_category := toSet c }
  let r := reset qt srt chum m1
  (r.1, Signal.showCategoryChanged :: r.2)

/-! ## Concrete instances of the library parameters -/

/-- Lowercase mapping of one code unit, for the Basic Latin capitals; the identity on
every other code unit (in particular on the Greek small letters σ, U+03C3, and final ς,
U+03C2, which are lowercase already). -/
def lowerUnit (c : QChar) : QChar :=
  if 65 ≤ c ∧ c ≤ 90 then c + 32 else c

/-- Case folding of one code unit: the Basic Latin capitals fold to the small letters and
the Greek final sigma ς (U+03C2) folds to σ (U+03C3), as in the Unicode case folding table
Qt uses; the identity on every other code unit. -/
def foldUnit (c : QChar) : QChar :=
  if 65 ≤ c ∧ c ≤ 90 then c + 32 else if c = 962 then 963 else c

/-- The behaviour of the Qt routines on text made of Basic Latin characters and the two
Greek small sigmas, on which NFKC normalisation changes nothing. -/
def basicQt : QtText where
  normalizedKC := fun s => s
  toLower := fun s => s.map lowerUnit
  toCaseFolded := fun s => s.map foldUnit
  foldCase := fun _ c => foldUnit c

/-- An implementation of the `std::sort` contract by insertion. -/
def insertionSorter (α : Type) : StdSort α where
  sort := fun comp l => l.insertionSort (fun a b => comp b a = false)
  perm := fun comp l => List.perm_insertionSort (fun a b => comp b a = false) l
  sorted := fun comp l h => by
    haveI : IsTotal α (fun a b => comp b a = false) := ⟨fun a b => by
      cases hab : comp a b with
      | false => exact Or.inr rfl
      | true =>
        cases hba : comp b a with
        | false => exact Or.inl rfl
        | true =>
          have h1 := h.trans a b a hab hba
          rw [h.irrefl] at h1
          cases h1⟩
    haveI : IsTrans α (fun a b => comp b a = false) := ⟨fun a b c hab hbc => by
      cases hca : comp c a with
      | false => rfl
      | true =>
        cases hbc2 : comp b c with
        | true =>
          have h1 := h.trans b c a hbc2 hca
          rw [hab] at h1
          cases h1
        | false =>
          cases hab2 : comp a b with
          | true =>
            have h1 := h.trans c a b hca hab2
            rw [hbc] at h1
            cases h1
          | false =>
            have h1 := (h.incomp_trans c b a hbc hbc2 hab hab2).1
            rw [hca] at h1
            cases h1⟩
    exact List.sorted_insertionSort (fun a b => comp b a = false) l

/-- The code units of a string literal. -/
def qs (s : String) : QString :=
  s.toList.map Char.toNat

/-- A package with the given id and name, every other attribute empty. -/
def mkPackage (id name : QString) : ChumPackage where
  id := id
  name := name
  summary := []
  description := []
  developer := []
  packager := []
  categories := []
  type := PackageType.PackageOther
  installed := false
  installedVersion := []
  starsCount := 0
  updateAvailable := false
  icon := []

/-- The model as constructed: empty view, no filter, no search. -/
def emptyModel : ChumPackagesModel where
  m_packages := []
  m_postpone_loading := false
  m_filter_applications_only := false
  m_filter_installed_only := false
  m_filter_updates_only := false
  m_search := []
  m_show_category := []


/-! ## The properties, as the specification words them -/

/-- The ids of the registry are pairwise distinct. -/
def Chum.uniqueIds (chum : Chum) : Prop :=
  (chum.packages.map (fun p => p.id)).Nodup

/-- The predicate chain of the specification, evaluated on one record: kind, installed,
update, category and text filter. -/
def specPasses (qt : QtText) (m : ChumPackagesModel) (r : ChumPackage) : Prop :=
  (¬ m.m_filter_applications_only = true ∨
    r.type = PackageType.PackageApplicationConsole ∨
    r.type = PackageType.PackageApplicationDesktop) ∧
  (¬ m.m_filter_installed_only = true ∨ r.installed = true) ∧
  (¬ m.m_filter_updates_only = true ∨ r.updateAvailable = true) ∧
  (m.m_show_category = [] ∨ ∃ c, c ∈ m.m_show_category ∧ c ∈ r.categories) ∧
  (m.m_search = [] ∨ searchFound qt m.m_search r = true)

/-- The specification's order on two ids of the view: both are found in the registry and
the case-folded name of the first is at most that of the second, in the lexicographic order
of the code units. -/
def nameOrdered (qt : QtText) (chum : Chum) (a b : QString) : Prop :=
  ∃ ra rb, chum.package a = some ra ∧ chum.package b = some rb ∧
    qt.toCaseFolded ra.name ≤ qt.toCaseFolded rb.name

/-- Every consecutive pair of ids is in the specification's order. -/
def sortedByName (qt : QtText) (chum : Chum) (ids : List QString) : Prop :=
  List.Chain' (nameOrdered qt chum) ids

/-- The terms of a query: its non-empty pieces between spaces, each normalised to NFKC and
lowercased. -/
def queryTerms (qt : QtText) (q : QString) : List QString :=
  ((split 32 q).filter (fun t => t ≠ [])).map (fun t => qt.toLower (qt.normalizedKC t))

/-- The text matcher as the specification words it: every term of the query occurs as a
substring of the searchable text. -/
def specMatches (qt : QtText) (q : QString) (r : ChumPackage) : Prop :=
  ∀ t ∈ queryTerms qt q, ∃ pre post, searchText qt r = pre ++ t ++ post

/-- The text matcher up to the case folding of the comparison: every term of the query,
case-folded, occurs as a contiguous run in the case-folded searchable text. -/
def foldedMatches (qt : QtText) (q : QString) (r : ChumPackage) : Prop :=
  ∀ t ∈ queryTerms qt q,
    ∃ pre post, foldUnits qt none (searchText qt r) = pre ++ foldUnits qt none t ++ post

/-! ## Concrete inputs -/

/-- A package named with the Greek final sigma, ς. -/
def sigmaPackage : ChumPackage :=
  mkPackage (qs "s") [962]

/-- The browser package of the specification's scenario. -/
def browserPackage : ChumPackage :=
  { mkPackage (qs "browser") (qs "Browser") with description := qs "A simple WEB client" }

instance Chum.decidableUniqueIds (chum : Chum) : Decidable chum.uniqueIds :=
  (inferInstance : Decidable ((chum.packages.map (fun p : ChumPackage => p.id)).Nodup))

/-- The registry of the specification's scenario: `A` is a desktop application that is not
installed, `B` an installed library. -/
def scenarioChum : Chum where
  packages :=
    [{ mkPackage (qs "B") (qs "Beta") with
        type := PackageType.PackageLibrary, installed := true },
     { mkPackage (qs "A") (qs "Alpha") with
        type := PackageType.PackageApplicationDesktop }]
  busy := false

/-- The model showing applications only. -/
def applicationsOnlyModel : ChumPackagesModel :=
  { emptyModel with m_filter_applications_only := true }

/-- A registry of two packages named "a" and "b". -/
def renameChum : Chum where
  packages := [mkPackage (qs "A") (qs "a"), mkPackage (qs "B") (qs "b")]
  busy := false

/-- The registry `renameChum` after package `A` was renamed to "c". -/
def renamedChum : Chum where
  packages := [mkPackage (qs "A") (qs "c"), mkPackage (qs "B") (qs "b")]
  busy := false

/-- The model after a rebuild over `renameChum`, with loading postponed afterwards. -/
def postponedModel : ChumPackagesModel :=
  { (reset basicQt (insertionSorter ChumPackage) renameChum emptyModel).1 with
      m_postpone_loading := true }

/-- A registry with three packages whose names differ only in case, and one other. -/
def zedChum : Chum where
  packages :=
    [mkPackage (qs "1") (qs "Zed"), mkPackage (qs "2") (qs "ZED"),
     mkPackage (qs "3") (qs "zed"), mkPackage (qs "4") (qs "alpha")]
  busy := false

/-- The model with the three toggle filters set. -/
def allTogglesModel : ChumPackagesModel :=
  { emptyModel with
      m_filter_applications_only := true
      m_filter_installed_only := true
      m_filter_updates_only := true }

/-- The package `p`, named "Browser", with the given summary, description and categories. -/
def webPackage (summary description : QString) (categories : List QString) : ChumPackage :=
  { mkPackage (qs "p") (qs "Browser") with
      summary := summary
      description := description
      categories := categories }

/-- The registry holding the one package `p`. -/
def webChum (summary description : QString) (categories : List QString) : Chum where
  packages := [webPackage summary description categories]
  busy := false

/-- The model searching for "web", rebuilt over the registry given. -/
def webSearchModel (chum : Chum) : ChumPackagesModel :=
  (reset basicQt (insertionSorter ChumPackage) chum { emptyModel with m_search := qs "web" }).1

/-- The model showing the category "Network", rebuilt over the registry given. -/
def networkModel (chum : Chum) : ChumPackagesModel :=
  (reset basicQt (insertionSorter ChumPackage) chum
    { emptyModel with m_show_category := [qs "Network"] }).1

/-- The filtered and sorted projection of the registry under the configuration of `m`: the
ids of the records the filter keeps, in the order the sort gives them. -/
def projection (qt : QtText) (srt : StdSort ChumPackage) (chum : Chum)
    (m : ChumPackagesModel) : List QString :=
  (sortedPackages qt srt chum m).map (fun p => p.id)

/-- The outcome of a full rebuild in the state `m`: `m_packages` replaced by the projection
of the registry, between the two reset signals. -/
def fullRebuild (qt : QtText) (srt : StdSort ChumPackage) (chum : Chum)
    (m : ChumPackagesModel) : ChumPackagesModel × List Signal :=
  ({ m with m_packages := projection qt srt chum m },
    [Signal.modelAboutToBeReset, Signal.modelReset])

/-- The five searchable fields of a record, in the order `reset` joins them. -/
def searchFields (p : ChumPackage) : List QString :=
  [p.name, p.summary, join 32 p.categories, p.developer, p.description]

/-- The specification's reading of the field separator: no term of the query contains the
newline that joins the fields, and a term the matcher finds in the searchable text is a
substring of a single normalised field. -/
def matchesInsideField (qt : QtText) (q : QString) (r : ChumPackage) : Prop :=
  ∀ t ∈ queryTerms qt q, 10 ∉ t ∧
    ((indexIn qt t (searchText qt r) != -1) = true →
      ∃ f ∈ searchFields r, ∃ pre post, qt.toLower (qt.normalizedKC f) = pre ++ t ++ post)

/-- The specification's parsing of the category filter: the non-empty segments of the
input between semicolons. -/
def nonEmptySegments (s : QString) : List QString :=
  (split 59 s).filter (fun t => t ≠ [])

/-- Two lists hold the same elements. -/
def sameSet (a b : List QString) : Prop :=
  ∀ x, x ∈ a ↔ x ∈ b

/-- The model as constructed and then rebuilt over the registry given. -/
def browsingModel (chum : Chum) : ChumPackagesModel :=
  (reset basicQt (insertionSorter ChumPackage) chum emptyModel).1

/-- A package named "foo" with the summary "bar". -/
def fooBarPackage : ChumPackage :=
  { mkPackage (qs "f") (qs "foo") with summary := qs "bar" }

/-- The model with loading postponed and a view of two rows. -/
def postponedTwoRows : ChumPackagesModel :=
  { emptyModel with m_packages := [qs "B", qs "A"], m_postpone_loading := true }

/-- The outcome `r` of an operation on the state `m` left the view alone: `m_packages` is
as before and neither reset signal was emitted. -/
def suppressed (m : ChumPackagesModel) (r : ChumPackagesModel × List Signal) : Prop :=
  r.1.m_packages = m.m_packages ∧ Signal.modelAboutToBeReset ∉ r.2 ∧
    Signal.modelReset ∉ r.2

/-- The scenario registry while a refresh is running. -/
def busyChum : Chum where
  packages := scenarioChum.packages
  busy := true

/-- The specification's notion of a duplicate-free sub-collection of the registry: no id
occurs twice, every id is the id of a registry record, and there are at most as many ids as
registry records. -/
def subCollection (chum : Chum) (ids : List QString) : Prop :=
  ids.Nodup ∧ (∀ id ∈ ids, ∃ r ∈ chum.packages, r.id = id) ∧
    ids.length ≤ chum.packages.length

/-- The scenario registry after the library `B` was removed from it. -/
def shrunkChum : Chum where
  packages :=
    [{ mkPackage (qs "A") (qs "Alpha") with
        type := PackageType.PackageApplicationDesktop }]
  busy := false

/-! ## Lemmas on strings and on the matcher -/

theorem foldl_and_eq_all {α : Type} (f : α → Bool) (l : List α) (b : Bool) :
    l.foldl (fun found q => found && f q) b = (b && l.all f) := by
  induction l generalizing b with
  | nil => simp
  | cons x xs ih => simp [List.foldl_cons, ih, Bool.and_assoc]

theorem split_ne_nil (sep : QChar) (s : QString) : split sep s ≠ [] := by
  cases s with
  | nil => simp [split]
  | cons c cs =>
    unfold split
    split_ifs
    · simp
    · split <;> simp

theorem split_append_sep (sep : QChar) (a b : QString) :
    split sep (a ++ sep :: b) = split sep a ++ split sep b := by
  induction a with
  | nil => simp [split]
  | cons c cs ih =>
    by_cases hc : c = sep
    · simp [split, hc, ih]
    · have hne := split_ne_nil sep cs
      cases hs : split sep cs with
      | nil => exact absurd hs hne
      | cons t ts => simp [split, hc, ih, hs]

theorem splitSkipEmptyParts_append_sep (sep : QChar) (a b : QString) :
    splitSkipEmptyParts sep (a ++ sep :: b) =
      splitSkipEmptyParts sep a ++ splitSkipEmptyParts sep b := by
  simp [splitSkipEmptyParts, split_append_sep]

theorem searchFound_eq_all (qt : QtText) (search : QString) (p : ChumPackage) :
    searchFound qt search p =
      (splitSkipEmptyParts 32 search).all (fun query =>
        indexIn qt (qt.toLower (qt.normalizedKC query)) (searchText qt p) != -1) := by
  unfold searchFound
  rw [foldl_and_eq_all]
  simp

theorem startsWith_iff (pat txt : List Nat) :
    startsWith pat txt = true ↔ ∃ post, txt = pat ++ post := by
  induction pat generalizing txt with
  | nil => simp [startsWith]
  | cons a as ih =>
    cases txt with
    | nil => simp [startsWith]
    | cons b bs =>
      simp only [startsWith, Bool.and_eq_true, beq_iff_eq, ih, List.cons_append,
        List.cons.injEq]
      constructor
      · rintro ⟨rfl, post, rfl⟩
        exact ⟨post, rfl, rfl⟩
      · rintro ⟨post, rfl, rfl⟩
        exact ⟨rfl, post, rfl⟩

theorem indexInFrom_ge (pat txt : List Nat) (i : Int) (hi : 0 ≤ i) :
    indexInFrom pat txt i = -1 ∨ i ≤ indexInFrom pat txt i := by
  induction txt generalizing i with
  | nil =>
    unfold indexInFrom
    split_ifs
    · exact Or.inr (le_refl _)
    · exact Or.inl rfl
  | cons c cs ih =>
    unfold indexInFrom
    split_ifs
    · exact Or.inr (le_refl _)
    · rcases ih (i + 1) (by omega) with h | h
      · exact Or.inl h
      · exact Or.inr (by omega)

theorem indexInFrom_found_iff (pat txt : List Nat) (i : Int) (hi : 0 ≤ i) :
    indexInFrom pat txt i ≠ -1 ↔ ∃ pre post, txt = pre ++ pat ++ post := by
  induction txt generalizing i with
  | nil =>
    unfold indexInFrom
    cases pat with
    | nil =>
      simp only [List.isEmpty_nil, if_true]
      constructor
      · intro _
        exact ⟨[], [], rfl⟩
      · intro _
        omega
    | cons a as => simp
  | cons c cs ih =>
    unfold indexInFrom
    by_cases hs : startsWith pat (c :: cs) = true
    · simp only [hs, if_true]
      constructor
      · intro _
        obtain ⟨post, hp⟩ := (startsWith_iff _ _).1 hs
        exact ⟨[], post, by simpa using hp⟩
      · intro _
        omega
    · simp only [hs]
      rw [if_neg (by simp), ih (i + 1) (by omega)]
      constructor
      · rintro ⟨pre, post, h⟩
        exact ⟨c :: pre, post, by simp [h]⟩
      · rintro ⟨pre, post, h⟩
        cases pre with
        | nil =>
          exfalso
          apply hs
          exact (startsWith_iff _ _).2 ⟨post, by simpa using h⟩
        | cons x pre =>
          simp only [List.cons_append, List.cons.injEq] at h
          exact ⟨pre, post, h.2⟩

theorem indexIn_found_iff (qt : QtText) (pattern txt : QString) :
    (indexIn qt pattern txt != -1) = true ↔
      ∃ pre post, foldUnits qt none txt = pre ++ foldUnits qt none pattern ++ post := by
  unfold indexIn
  rw [bne_iff_ne]
  exact indexInFrom_found_iff _ _ 0 (le_refl _)

/-! ## The text matcher -/

/-- C5. AND-search: for every record and every two queries `q1` and `q2`, the matcher
of `reset` accepts the record for `q1 ++ " " ++ q2` exactly when it accepts it for `q1`
and for `q2`. -/
theorem searchFound_and (qt : QtText) (q1 q2 : QString) (r : ChumPackage) :
    searchFound qt (q1 ++ qs " " ++ q2) r =
      (searchFound qt q1 r && searchFound qt q2 r) := by
  have h : q1 ++ qs " " ++ q2 = q1 ++ 32 :: q2 := by
    simp [qs]
  rw [h]
  simp [searchFound_eq_all, splitSkipEmptyParts_append_sep, List.all_append]

theorem mem_queryTerms (qt : QtText) (q t : QString) :
    t ∈ queryTerms qt q ↔
      ∃ piece ∈ splitSkipEmptyParts 32 q, t = qt.toLower (qt.normalizedKC piece) := by
  simp only [queryTerms, splitSkipEmptyParts, List.mem_map, List.mem_filter]
  constructor
  · rintro ⟨piece, ⟨hp, hne⟩, rfl⟩
    refine ⟨piece, ⟨hp, ?_⟩, rfl⟩
    cases piece with
    | nil => simp at hne
    | cons a as => rfl
  · rintro ⟨piece, ⟨hp, hne⟩, rfl⟩
    refine ⟨piece, ⟨hp, ?_⟩, rfl⟩
    cases piece with
    | nil => simp at hne
    | cons a as => simp

/-- C6 as stated fails: with the name "ς" and the query "σ" the matcher accepts the record,
because it compares case-insensitively and both letters fold to σ, although the term "σ"
is not a substring of the normalised, lowercased text. -/
theorem specMatches_counterexample :
    ¬ (searchFound basicQt [963] sigmaPackage = true ↔
        specMatches basicQt [963] sigmaPackage) := by
  intro h
  have hfound : searchFound basicQt [963] sigmaPackage = true := by decide
  have hspec := h.1 hfound
  have hterm : ([963] : QString) ∈ queryTerms basicQt [963] := by decide
  obtain ⟨pre, post, hpp⟩ := hspec [963] hterm
  have htxt : searchText basicQt sigmaPackage = [962, 10, 10, 10, 10] := by decide
  rw [htxt] at hpp
  have hmem : (963 : Nat) ∈ pre ++ [963] ++ post := by simp
  rw [← hpp] at hmem
  revert hmem
  decide

/-- C6, amended. The matcher of `reset` accepts a record for a query exactly when every
non-empty piece of the query between spaces, normalised to NFKC and lowercased, occurs in
the normalised, lowercased text joined from name, summary, space-joined categories,
developer and description as a contiguous run up to the case folding of the
case-insensitive comparison; the answer does not depend on the order of the terms, and the
packager field is not searched. -/
theorem searchFound_iff_foldedMatches (qt : QtText) (q : QString) (r : ChumPackage) :
    (searchFound qt q r = true ↔ foldedMatches qt q r) ∧
    (∀ q1 q2 : QString,
      searchFound qt (q1 ++ qs " " ++ q2) r = searchFound qt (q2 ++ qs " " ++ q1) r) ∧
    (∀ x : QString, searchFound qt q { r with packager := x } = searchFound qt q r) := by
  refine ⟨?_, ?_, ?_⟩
  · rw [searchFound_eq_all, List.all_eq_true]
    unfold foldedMatches
    constructor
    · intro h t ht
      obtain ⟨piece, hp, rfl⟩ := (mem_queryTerms qt q t).1 ht
      exact (indexIn_found_iff qt _ _).1 (h piece hp)
    · intro h piece hp
      exact (indexIn_found_iff qt _ _).2
        (h _ ((mem_queryTerms qt q _).2 ⟨piece, hp, rfl⟩))
  · intro q1 q2
    have h : ∀ a b : QString, a ++ qs " " ++ b = a ++ 32 :: b := by
      intro a b
      simp [qs]
    rw [h, h]
    simp only [searchFound_eq_all, splitSkipEmptyParts_append_sep, List.all_append]
    exact Bool.and_comm _ _
  · intro x
    rfl

/-- The amended C6 at the specification's scenario: the query "web Browser" is accepted for
the record named "Browser" with description "A simple WEB client", so both terms occur in
its text up to case. -/
theorem searchFound_iff_foldedMatches_witness :
    foldedMatches basicQt (qs "web Browser") browserPackage :=
  (searchFound_iff_foldedMatches basicQt (qs "web Browser") browserPackage).1.1 (by decide)


/-! ## Lemmas on the filter, the comparison and the lookup -/

theorem qstringLess_iff_lt (x y : QString) : qstringLess x y = true ↔ x < y := by
  induction x generalizing y with
  | nil =>
    cases y with
    | nil => simp [qstringLess]
    | cons b bs => simp [qstringLess, List.nil_lt_cons]
  | cons a as ih =>
    cases y with
    | nil =>
      simp only [qstringLess]
      constructor
      · intro h
        cases h
      · intro h
        exact absurd h (List.Lex.not_nil_right _ _)
    | cons b bs =>
      simp only [qstringLess]
      rcases Nat.lt_trichotomy a b with hab | hab | hab
      · simp only [hab, if_true, true_iff]
        exact List.Lex.rel hab
      · subst hab
        simp only [Nat.lt_irrefl, if_false, ih]
        exact (List.Lex.cons_iff).symm
      · have hnot : ¬ a < b := Nat.lt_asymm hab
        simp only [hnot, hab, if_false, if_true]
        constructor
        · intro h
          cases h
        · intro h
          cases h with
          | cons h1 => exact absurd hab (Nat.lt_irrefl _)
          | rel h1 => exact absurd h1 hnot

theorem qstringLess_eq_false_iff_le (x y : QString) : qstringLess y x = false ↔ x ≤ y := by
  rw [← not_lt, ← qstringLess_iff_lt]
  simp

theorem nameLess_strictWeakOrdering (qt : QtText) : StrictWeakOrdering (nameLess qt) where
  irrefl := fun a => by
    unfold nameLess
    rw [qstringLess_eq_false_iff_le]
  trans := fun a b c hab hbc => by
    unfold nameLess at *
    rw [qstringLess_iff_lt] at *
    exact lt_trans hab hbc
  incomp_trans := fun a b c hab hba hbc hcb => by
    unfold nameLess at *
    simp only [qstringLess_eq_false_iff_le] at *
    exact ⟨le_trans hbc hab, le_trans hba hcb⟩

theorem sortedPackages_pairwise (qt : QtText) (srt : StdSort ChumPackage) (chum : Chum)
    (m : ChumPackagesModel) :
    (sortedPackages qt srt chum m).Pairwise
      (fun a b => qt.toCaseFolded a.name ≤ qt.toCaseFolded b.name) := by
  have h := srt.sorted (nameLess qt) (chum.packages.filter (filterAccepts qt m))
    (nameLess_strictWeakOrdering qt)
  refine h.imp ?_
  intro a b hab
  exact (qstringLess_eq_false_iff_le _ _).1 hab

theorem mem_sortedPackages (qt : QtText) (srt : StdSort ChumPackage) (chum : Chum)
    (m : ChumPackagesModel) (p : ChumPackage) :
    p ∈ sortedPackages qt srt chum m ↔ p ∈ chum.packages ∧ filterAccepts qt m p = true := by
  unfold sortedPackages
  rw [(srt.perm _ _).mem_iff, List.mem_filter]

theorem intersects_iff (a b : List QString) :
    intersects a (toSet b) = true ↔ ∃ c, c ∈ a ∧ c ∈ b := by
  simp [intersects, toSet]

theorem filterAccepts_iff_specPasses (qt : QtText) (m : ChumPackagesModel)
    (r : ChumPackage) : filterAccepts qt m r = true ↔ specPasses qt m r := by
  unfold filterAccepts specPasses
  rw [← intersects_iff]
  have hempty : m.m_show_category.isEmpty = true ↔ m.m_show_category = [] :=
    List.isEmpty_iff
  have hsearch : m.m_search.isEmpty = true ↔ m.m_search = [] := List.isEmpty_iff
  cases ha : m.m_filter_applications_only <;> cases hin : m.m_filter_installed_only <;>
    cases hu : m.m_filter_updates_only <;>
    cases hce : m.m_show_category.isEmpty <;> cases hse : m.m_search.isEmpty <;>
    simp only [hce, hse, Bool.false_eq_true, false_iff, true_iff] at hempty hsearch <;>
    simp [hempty, hsearch]

theorem package_of_mem (chum : Chum) (hu : chum.uniqueIds) (p : ChumPackage)
    (hp : p ∈ chum.packages) : chum.package p.id = some p := by
  obtain ⟨ps, busy⟩ := chum
  unfold Chum.package
  unfold Chum.uniqueIds at hu
  simp only at hu hp ⊢
  induction ps with
  | nil => cases hp
  | cons x xs ih =>
    rw [List.map_cons, List.nodup_cons] at hu
    rcases List.mem_cons.1 hp with rfl | hmem
    · simp
    · have hne : x.id ≠ p.id := by
        intro he
        exact hu.1 (he ▸ List.mem_map_of_mem _ hmem)
      rw [List.find?_cons_of_neg _ (by simpa using hne)]
      exact ih hu.2 hmem

theorem indexOf_neg_iff (l : List QString) (v : QString) : indexOf l v < 0 ↔ v ∉ l := by
  induction l with
  | nil => simp [indexOf]
  | cons x xs ih =>
    unfold indexOf
    by_cases hx : x = v
    · simp [hx]
    · have hv : ¬ v = x := fun h => hx h.symm
      simp only [hx, if_false, List.mem_cons, hv, false_or]
      by_cases hi : indexOf xs v < 0
      · simp only [hi, if_true]
        constructor
        · intro _
          exact ih.1 hi
        · intro _
          omega
      · simp only [hi, if_false]
        have h0 : 0 ≤ indexOf xs v := by omega
        constructor
        · intro h
          omega
        · intro h
          exact absurd (ih.2 h) hi

/-! ## The rebuild -/

/-- C2. Filter correctness of `reset`: with unique ids and loading not postponed, after
`reset` the id of a registry record is in `m_packages` exactly when that record passes the
predicate chain of the specification, which looks at the record and the configuration
only; and every id in `m_packages` is the id of a registry record. -/
theorem reset_filter_correct (qt : QtText) (srt : StdSort ChumPackage) (chum : Chum)
    (m : ChumPackagesModel) (hu : chum.uniqueIds) (hp : m.m_postpone_loading = false) :
    (∀ r ∈ chum.packages,
      r.id ∈ (reset qt srt chum m).1.m_packages ↔ specPasses qt m r) ∧
    (∀ id ∈ (reset qt srt chum m).1.m_packages, ∃ r ∈ chum.packages, r.id = id) := by
  have hreset : (reset qt srt chum m).1.m_packages =
      (sortedPackages qt srt chum m).map (fun p => p.id) := by
    simp [reset, hp]
  rw [hreset]
  constructor
  · intro r hr
    rw [← filterAccepts_iff_specPasses, List.mem_map]
    constructor
    · rintro ⟨p, hpmem, hid⟩
      obtain ⟨hpc, hacc⟩ := (mem_sortedPackages qt srt chum m p).1 hpmem
      have h1 := package_of_mem chum hu p hpc
      have h2 := package_of_mem chum hu r hr
      rw [hid, h2] at h1
      cases h1
      exact hacc
    · intro hacc
      exact ⟨r, (mem_sortedPackages qt srt chum m r).2 ⟨hr, hacc⟩, rfl⟩
  · intro id hid
    obtain ⟨p, hpmem, hpid⟩ := List.mem_map.1 hid
    exact ⟨p, ((mem_sortedPackages qt srt chum m p).1 hpmem).1, hpid⟩

/-- C2 at the specification's scenario: with applications only, the desktop application
`A` is in the view and the library `B` is not. -/
theorem reset_filter_correct_witness :
    scenarioChum.uniqueIds ∧ applicationsOnlyModel.m_postpone_loading = false ∧
    (∀ r ∈ scenarioChum.packages,
      r.id ∈ (reset basicQt (insertionSorter ChumPackage) scenarioChum
        applicationsOnlyModel).1.m_packages ↔ specPasses basicQt applicationsOnlyModel r) :=
  ⟨by decide, rfl,
    (reset_filter_correct basicQt (insertionSorter ChumPackage) scenarioChum
      applicationsOnlyModel (by decide) rfl).1⟩

/-- C3 as stated fails while loading is postponed: the view was built as `[A, B]` over the
names "a" and "b"; with the postpone flag set, `A` is renamed to "c" and `reset` returns
at once, so after `reset` the consecutive pair `(A, B)` has names "c" and "b". -/
theorem sortedByName_counterexample :
    ¬ sortedByName basicQt renamedChum
      (reset basicQt (insertionSorter ChumPackage) renamedChum postponedModel).1.m_packages := by
  have hids : (reset basicQt (insertionSorter ChumPackage) renamedChum
      postponedModel).1.m_packages = [qs "A", qs "B"] := by decide
  rw [hids]
  unfold sortedByName
  rw [List.chain'_pair]
  rintro ⟨ra, rb, ha, hb, hle⟩
  have ha2 : renamedChum.package (qs "A") = some (mkPackage (qs "A") (qs "c")) := by decide
  have hb2 : renamedChum.package (qs "B") = some (mkPackage (qs "B") (qs "b")) := by decide
  rw [ha2] at ha
  rw [hb2] at hb
  cases ha
  cases hb
  have h := (qstringLess_eq_false_iff_le _ _).2 hle
  revert h
  decide

/-- C3, amended. Sort correctness of `reset`: with unique ids and loading not postponed,
after `reset` every consecutive pair of ids `(a, b)` in `m_packages` is found in the
registry and satisfies `caseFold(name(a)) ≤ caseFold(name(b))` in the lexicographic order
of the code units. -/
theorem reset_sortedByName (qt : QtText) (srt : StdSort ChumPackage) (chum : Chum)
    (m : ChumPackagesModel) (hu : chum.uniqueIds) (hp : m.m_postpone_loading = false) :
    sortedByName qt chum (reset qt srt chum m).1.m_packages := by
  have hreset : (reset qt srt chum m).1.m_packages =
      (sortedPackages qt srt chum m).map (fun p => p.id) := by
    simp [reset, hp]
  rw [hreset]
  unfold sortedByName
  rw [List.chain'_map]
  have hpw := List.Pairwise.and_mem.1 (sortedPackages_pairwise qt srt chum m)
  refine (hpw.imp ?_).chain'
  rintro a b ⟨ha, hb, hab⟩
  exact ⟨a, b,
    package_of_mem chum hu a ((mem_sortedPackages qt srt chum m a).1 ha).1,
    package_of_mem chum hu b ((mem_sortedPackages qt srt chum m b).1 hb).1, hab⟩

/-- The amended C3 on the renamed registry, loading not postponed. -/
theorem reset_sortedByName_witness :
    renamedChum.uniqueIds ∧ emptyModel.m_postpone_loading = false ∧
    sortedByName basicQt renamedChum
      (reset basicQt (insertionSorter ChumPackage) renamedChum emptyModel).1.m_packages :=
  ⟨by decide, rfl,
    reset_sortedByName basicQt (insertionSorter ChumPackage) renamedChum emptyModel
      (by decide) rfl⟩

/-- C4. `reset` is idempotent and tie-stable: a second `reset` with the registry and the
configuration unchanged gives the same state, so the same `m_packages` sequence, and emits
the same signals; and in the sorted list behind `m_packages` the records between two
records of equal case-folded name have that case-folded name too, so records that differ
only in case sit next to each other, in an order that is the same on every rebuild. -/
theorem reset_idempotent (qt : QtText) (srt : StdSort ChumPackage) (chum : Chum)
    (m : ChumPackagesModel) :
    reset qt srt chum (reset qt srt chum m).1 = reset qt srt chum m ∧
    (∀ (l1 l2 l3 : List ChumPackage) (a b : ChumPackage),
      sortedPackages qt srt chum m = l1 ++ a :: (l2 ++ b :: l3) →
      qt.toCaseFolded a.name = qt.toCaseFolded b.name →
      ∀ c ∈ l2, qt.toCaseFolded c.name = qt.toCaseFolded a.name) := by
  constructor
  · cases hp : m.m_postpone_loading with
    | true => simp [reset, hp]
    | false =>
      have h1 : reset qt srt chum m =
          ({ m with m_packages := (sortedPackages qt srt chum m).map (fun p => p.id) },
            [Signal.modelAboutToBeReset, Signal.modelReset]) := by
        simp [reset, hp]
      rw [h1]
      simp only [reset, hp]
      rfl
  · intro l1 l2 l3 a b hs hab c hc
    have hpw := sortedPackages_pairwise qt srt chum m
    rw [hs] at hpw
    have h2 := (List.pairwise_append.1 hpw).2.1
    rw [List.pairwise_cons] at h2
    have hac := h2.1 c (List.mem_append_left _ hc)
    have h3 := (List.pairwise_append.1 h2.2).2.2 c hc b (List.mem_cons_self _ _)
    rw [← hab] at h3
    exact le_antisymm h3 hac

/-- C4 on a registry with the names "Zed", "ZED", "zed" and "alpha": whatever stands between
"Zed" and "zed" in the sorted list has their case-folded name. -/
theorem reset_idempotent_witness :
    ∀ c ∈ [mkPackage (qs "2") (qs "ZED")],
      basicQt.toCaseFolded c.name =
        basicQt.toCaseFolded (mkPackage (qs "1") (qs "Zed")).name :=
  (reset_idempotent basicQt (insertionSorter ChumPackage) zedChum emptyModel).2
    [mkPackage (qs "4") (qs "alpha")] [mkPackage (qs "2") (qs "ZED")] []
    (mkPackage (qs "1") (qs "Zed")) (mkPackage (qs "3") (qs "zed")) (by decide) (by decide)


/-! ## Change notifications -/

/-- C1 at a failing input. The view searches for "web" and was rebuilt while the description
of `p` was "web client", so it is `[p]`. The description becomes "mail client" and
`updatePackage(p, description)` runs: the role is not in `roles`, the function returns at
line 208, and `m_packages` is still `[p]`, while a fresh `reset` over the changed registry
gives the empty view. -/
theorem updatePackage_description_stale :
    (webSearchModel (webChum [] (qs "web client") [])).m_packages = [qs "p"] ∧
    (updatePackage basicQt (insertionSorter ChumPackage) (webChum [] (qs "mail client") [])
      (webSearchModel (webChum [] (qs "web client") [])) (qs "p")
      Role.PackageDescriptionRole).1.m_packages = [qs "p"] ∧
    (reset basicQt (insertionSorter ChumPackage) (webChum [] (qs "mail client") [])
      (webSearchModel (webChum [] (qs "web client") []))).1.m_packages = [] := by
  decide

/-- C7 at a failing input. The view searches for "web" and holds `p`, whose summary was
"web client" and is now "mail client". `updatePackage(p, summary)` returns the state
unchanged and emits nothing, where `reset` would empty the view and emit the reset
signals. -/
theorem updatePackage_summary_no_reset :
    updatePackage basicQt (insertionSorter ChumPackage) (webChum (qs "mail client") [] [])
      (webSearchModel (webChum (qs "web client") [] [])) (qs "p") Role.PackageSummaryRole =
      (webSearchModel (webChum (qs "web client") [] []), []) ∧
    reset basicQt (insertionSorter ChumPackage) (webChum (qs "mail client") [] [])
      (webSearchModel (webChum (qs "web client") [] [])) =
      ({ webSearchModel (webChum (qs "web client") [] []) with m_packages := [] },
        [Signal.modelAboutToBeReset, Signal.modelReset]) := by
  decide

/-- C8 at a failing input. The view shows the category "Network" and holds `p`, whose
categories were `[Network]` and are now `[Game]`. `updatePackage(p, categories)` returns
the state unchanged and emits nothing, where `reset` would empty the view and emit the
reset signals. -/
theorem updatePackage_categories_no_reset :
    updatePackage basicQt (insertionSorter ChumPackage) (webChum [] [] [qs "Game"])
      (networkModel (webChum [] [] [qs "Network"])) (qs "p") Role.PackageCategoriesRole =
      (networkModel (webChum [] [] [qs "Network"]), []) ∧
    reset basicQt (insertionSorter ChumPackage) (webChum [] [] [qs "Game"])
      (networkModel (webChum [] [] [qs "Network"])) =
      ({ networkModel (webChum [] [] [qs "Network"]) with m_packages := [] },
        [Signal.modelAboutToBeReset, Signal.modelReset]) := by
  decide

/-- C9. With loading not postponed, `updatePackage(id, a)` is a full rebuild when `a` is
the name, whatever the configuration, when `a` is the kind and applications-only is set,
when `a` is installed and installed-only is set, and when `a` is updateAvailable and
updates-only is set: it returns what `reset` returns, namely the rebuilt `m_packages`
between the two reset signals. -/
theorem updatePackage_rebuilds (qt : QtText) (srt : StdSort ChumPackage) (chum : Chum)
    (m : ChumPackagesModel) (id : QString) (hp : m.m_postpone_loading = false) :
    updatePackage qt srt chum m id Role.PackageNameRole = reset qt srt chum m ∧
    (m.m_filter_applications_only = true →
      updatePackage qt srt chum m id Role.PackageTypeRole = reset qt srt chum m) ∧
    (m.m_filter_installed_only = true →
      updatePackage qt srt chum m id Role.PackageInstalledRole = reset qt srt chum m) ∧
    (m.m_filter_updates_only = true →
      updatePackage qt srt chum m id Role.PackageUpdateAvailableRole =
        reset qt srt chum m) ∧
    reset qt srt chum m =
      ({ m with m_packages := (sortedPackages qt srt chum m).map (fun p => p.id) },
        [Signal.modelAboutToBeReset, Signal.modelReset]) := by
  refine ⟨?_, ?_, ?_, ?_, ?_⟩
  · simp [updatePackage, roles, filter_or_order_may_change, sort_roles]
  · intro h
    simp [updatePackage, roles, filter_or_order_may_change, sort_roles, h]
  · intro h
    simp [updatePackage, roles, filter_or_order_may_change, sort_roles, h]
  · intro h
    simp [updatePackage, roles, filter_or_order_may_change, sort_roles, h]
  · simp [reset, hp]

/-- C9 on the scenario registry with the three toggle filters set. -/
theorem updatePackage_rebuilds_witness :
    allTogglesModel.m_postpone_loading = false ∧
    updatePackage basicQt (insertionSorter ChumPackage) scenarioChum allTogglesModel (qs "A")
      Role.PackageTypeRole =
      reset basicQt (insertionSorter ChumPackage) scenarioChum allTogglesModel ∧
    updatePackage basicQt (insertionSorter ChumPackage) scenarioChum allTogglesModel (qs "A")
      Role.PackageInstalledRole =
      reset basicQt (insertionSorter ChumPackage) scenarioChum allTogglesModel ∧
    updatePackage basicQt (insertionSorter ChumPackage) scenarioChum allTogglesModel (qs "A")
      Role.PackageUpdateAvailableRole =
      reset basicQt (insertionSorter ChumPackage) scenarioChum allTogglesModel :=
  ⟨rfl,
    (updatePackage_rebuilds basicQt (insertionSorter ChumPackage) scenarioChum
      allTogglesModel (qs "A") rfl).2.1 rfl,
    (updatePackage_rebuilds basicQt (insertionSorter ChumPackage) scenarioChum
      allTogglesModel (qs "A") rfl).2.2.1 rfl,
    (updatePackage_rebuilds basicQt (insertionSorter ChumPackage) scenarioChum
      allTogglesModel (qs "A") rfl).2.2.2.1 rfl⟩

/-- C10. Irrelevant attributes never rebuild: for every state, package id and attribute `a`
(a tag of a record field, not the refresh marker) that is not the name and on which no
active filter depends, `updatePackage(id, a)` leaves the state, hence `m_packages`,
unchanged and emits either nothing or one `dataChanged` for a single row, never a reset
signal; and when `id` is not in `m_packages` it emits nothing. The function is total and
does not look the id up in the registry. -/
theorem updatePackage_irrelevant (qt : QtText) (srt : StdSort ChumPackage) (chum : Chum)
    (m : ChumPackagesModel) (id : QString) (a : Role)
    (hattr : a ≠ Role.PackageRefreshRole)
    (hname : a ≠ Role.PackageNameRole)
    (hkind : ¬ (m.m_filter_applications_only = true ∧ a = Role.PackageTypeRole))
    (hinst : ¬ (m.m_filter_installed_only = true ∧ a = Role.PackageInstalledRole))
    (hupd : ¬ (m.m_filter_updates_only = true ∧ a = Role.PackageUpdateAvailableRole))
    (hcat : ¬ (m.m_show_category ≠ [] ∧ a = Role.PackageCategoriesRole))
    (hsearch : ¬ (m.m_search ≠ [] ∧
      a ∈ [Role.PackageNameRole, Role.PackageSummaryRole, Role.PackageCategoriesRole,
        Role.PackageDeveloperRole, Role.PackageDescriptionRole])) :
    (updatePackage qt srt chum m id a).1 = m ∧
    ((updatePackage qt srt chum m id a).2 = [] ∨
      ∃ i : Int, (updatePackage qt srt chum m id a).2 = [Signal.dataChanged i i]) ∧
    (id ∉ m.m_packages → (updatePackage qt srt chum m id a).2 = []) := by
  have hidx := indexOf_neg_iff m.m_packages id
  have hskip : ∀ r : Role, roles.contains r = false →
      updatePackage qt srt chum m id r = (m, []) := by
    intro r hr
    simp only [updatePackage, hr, Bool.not_false, Bool.true_or, if_true]
  have hpatch : ∀ r : Role, roles.contains r = true → r ≠ Role.PackageRefreshRole →
      filter_or_order_may_change m r = false →
      updatePackage qt srt chum m id r =
        (m, if indexOf m.m_packages id < 0 then [] else
          [Signal.dataChanged (indexOf m.m_packages id) (indexOf m.m_packages id)]) := by
    intro r hr hne hf
    simp only [updatePackage, hr, hf]
    by_cases hi : indexOf m.m_packages id < 0 <;> simp [hne, hi]
  have hfinish : ∀ r : Role,
      updatePackage qt srt chum m id r =
        (m, if indexOf m.m_packages id < 0 then [] else
          [Signal.dataChanged (indexOf m.m_packages id) (indexOf m.m_packages id)]) →
      (updatePackage qt srt chum m id r).1 = m ∧
      ((updatePackage qt srt chum m id r).2 = [] ∨
        ∃ i : Int, (updatePackage qt srt chum m id r).2 = [Signal.dataChanged i i]) ∧
      (id ∉ m.m_packages → (updatePackage qt srt chum m id r).2 = []) := by
    intro r h
    rw [h]
    refine ⟨rfl, ?_, ?_⟩
    · by_cases hi : indexOf m.m_packages id < 0
      · exact Or.inl (by simp [hi])
      · exact Or.inr ⟨indexOf m.m_packages id, by simp [hi]⟩
    · intro hid
      simp [hidx.2 hid]
  have hskipped : ∀ r : Role, roles.contains r = false →
      (updatePackage qt srt chum m id r).1 = m ∧
      ((updatePackage qt srt chum m id r).2 = [] ∨
        ∃ i : Int, (updatePackage qt srt chum m id r).2 = [Signal.dataChanged i i]) ∧
      (id ∉ m.m_packages → (updatePackage qt srt chum m id r).2 = []) := by
    intro r hr
    rw [hskip r hr]
    exact ⟨rfl, Or.inl rfl, fun _ => rfl⟩
  cases a with
  | PackageRefreshRole => exact absurd rfl hattr
  | PackageNameRole => exact absurd rfl hname
  | PackageIdRole =>
    exact hfinish _ (hpatch _ (by decide) (by decide)
      (by simp [filter_or_order_may_change, search_roles, sort_roles]))
  | PackageIconRole =>
    exact hfinish _ (hpatch _ (by decide) (by decide)
      (by simp [filter_or_order_may_change, search_roles, sort_roles]))
  | PackageStarsCountRole =>
    exact hfinish _ (hpatch _ (by decide) (by decide)
      (by simp [filter_or_order_may_change, search_roles, sort_roles]))
  | PackageInstalledVersionRole =>
    exact hfinish _ (hpatch _ (by decide) (by decide)
      (by simp [filter_or_order_may_change, search_roles, sort_roles]))
  | PackageTypeRole =>
    have h : m.m_filter_applications_only = false := by
      cases h : m.m_filter_applications_only with
      | false => rfl
      | true => exact absurd ⟨h, rfl⟩ hkind
    exact hfinish _ (hpatch _ (by decide) (by decide)
      (by simp [filter_or_order_may_change, search_roles, sort_roles, h]))
  | PackageInstalledRole =>
    have h : m.m_filter_installed_only = false := by
      cases h : m.m_filter_installed_only with
      | false => rfl
      | true => exact absurd ⟨h, rfl⟩ hinst
    exact hfinish _ (hpatch _ (by decide) (by decide)
      (by simp [filter_or_order_may_change, search_roles, sort_roles, h]))
  | PackageUpdateAvailableRole =>
    have h : m.m_filter_updates_only = false := by
      cases h : m.m_filter_updates_only with
      | false => rfl
      | true => exact absurd ⟨h, rfl⟩ hupd
    exact hfinish _ (hpatch _ (by decide) (by decide)
      (by simp [filter_or_order_may_change, search_roles, sort_roles, h]))
  | PackageCategoriesRole => exact hskipped _ (by decide)
  | PackageDescriptionRole => exact hskipped _ (by decide)
  | PackageDeveloperRole => exact hskipped _ (by decide)
  | PackagePackagerRole => exact hskipped _ (by decide)
  | PackageSummaryRole => exact hskipped _ (by decide)
  | PackageOtherRole tag => exact hskipped _ (by simp [roles])

/-- C10 for a star-count change of a package that is not in the view, under all three
toggle filters: nothing is emitted. -/
theorem updatePackage_irrelevant_witness :
    (updatePackage basicQt (insertionSorter ChumPackage) scenarioChum allTogglesModel
      (qs "gone") Role.PackageStarsCountRole).2 = [] :=
  (updatePackage_irrelevant basicQt (insertionSorter ChumPackage) scenarioChum
    allTogglesModel (qs "gone") Role.PackageStarsCountRole
    (by decide) (by decide) (by decide) (by decide) (by decide) (by decide)
    (by decide)).2.2 (by decide)


/-! ## Single-row patches -/

theorem indexOf_eq_of_first (l : List QString) (v : QString) (i : Nat)
    (hi : l[i]? = some v) (hfirst : ∀ j, j < i → l[j]? ≠ some v) :
    indexOf l v = (i : Int) := by
  induction l generalizing i with
  | nil => simp at hi
  | cons x xs ih =>
    cases i with
    | zero =>
      simp only [List.getElem?_cons_zero, Option.some.injEq] at hi
      simp [indexOf, hi]
    | succ k =>
      have hx : x ≠ v := by
        intro h
        exact hfirst 0 (Nat.succ_pos k) (by simp [h])
      have hk : xs[k]? = some v := by simpa using hi
      have hrec := ih k hk (fun j hj => by
        have := hfirst (j + 1) (Nat.succ_lt_succ hj)
        simpa using this)
      unfold indexOf
      simp only [hx, if_false, hrec]
      have hnn : ¬ ((k : Int) < 0) := by omega
      simp only [hnn, if_false]
      push_cast
      rfl

/-- C11 at a failing input. No filter and no search are active and the view is `[p]`. A
change of the packager of `p` reaches `updatePackage(p, packager)`: the role is not in
`roles`, the function returns at line 208 and emits nothing, where the claim has one
single-row notification for row 0, as the icon role gets. -/
theorem updatePackage_packager_no_patch :
    (browsingModel (webChum [] [] [])).m_packages = [qs "p"] ∧
    updatePackage basicQt (insertionSorter ChumPackage) (webChum [] [] [])
      (browsingModel (webChum [] [] [])) (qs "p") Role.PackagePackagerRole =
      (browsingModel (webChum [] [] []), []) ∧
    updatePackage basicQt (insertionSorter ChumPackage) (webChum [] [] [])
      (browsingModel (webChum [] [] [])) (qs "p") Role.PackageIconRole =
      (browsingModel (webChum [] [] []), [Signal.dataChanged 0 0]) := by
  decide

/-- C12. Star-count patch: for every state, whatever the configuration, and every id that
stands in `m_packages` at index `i` (its first index, should the list repeat an id, which
a view never does), `updatePackage(id, starsCount)` returns the state unchanged, so
`m_packages` is unchanged, and emits exactly one signal, `dataChanged` for the rows
`[i, i]`, hence no reset signal. -/
theorem updatePackage_starsCount_patch (qt : QtText) (srt : StdSort ChumPackage)
    (chum : Chum) (m : ChumPackagesModel) (id : QString) (i : Nat)
    (hi : m.m_packages[i]? = some id)
    (hfirst : ∀ j, j < i → m.m_packages[j]? ≠ some id) :
    updatePackage qt srt chum m id Role.PackageStarsCountRole =
      (m, [Signal.dataChanged i i]) := by
  have hidx := indexOf_eq_of_first m.m_packages id i hi hfirst
  have hnn : ¬ ((i : Int) < 0) := by omega
  simp [updatePackage, roles, filter_or_order_may_change, search_roles, sort_roles, hidx,
    hnn]

/-- C12 on the scenario registry with the three toggle filters set and a view `[B, A]`:
a star-count change of `A` gives one `dataChanged` for row 1. -/
theorem updatePackage_starsCount_patch_witness :
    updatePackage basicQt (insertionSorter ChumPackage) scenarioChum
      { allTogglesModel with m_packages := [qs "B", qs "A"] } (qs "A")
      Role.PackageStarsCountRole =
      ({ allTogglesModel with m_packages := [qs "B", qs "A"] },
        [Signal.dataChanged ((1 : Nat) : Int) ((1 : Nat) : Int)]) :=
  updatePackage_starsCount_patch basicQt (insertionSorter ChumPackage) scenarioChum
    { allTogglesModel with m_packages := [qs "B", qs "A"] } (qs "A") 1 (by decide)
    (by decide)

/-! ## The configuration setters -/

theorem reset_of_not_postponed (qt : QtText) (srt : StdSort ChumPackage) (chum : Chum)
    (m : ChumPackagesModel) (hp : m.m_postpone_loading = false) :
    reset qt srt chum m =
      ({ m with m_packages := projection qt srt chum m },
        [Signal.modelAboutToBeReset, Signal.modelReset]) := by
  simp [reset, hp, projection]

/-- C13. Configuration setters rebuild: with loading not postponed, each of the five
setters stores its value in its field (`setShowCategory` the set of the segments of its
string), emits the changed signal of that field followed by the two reset signals, and
leaves `m_packages` equal to the filtered and sorted projection of the registry under the
new configuration; for `setSearch` this is so when the value differs from the current
one. -/
theorem setters_rebuild (qt : QtText) (srt : StdSort ChumPackage) (chum : Chum)
    (m : ChumPackagesModel) (hp : m.m_postpone_loading = false) :
    (∀ v : Bool, setFilterApplicationsOnly qt srt chum m v =
      ({ m with
          m_filter_applications_only := v
          m_packages := projection qt srt chum { m with m_filter_applications_only := v } },
        [Signal.filterApplicationsOnlyChanged, Signal.modelAboutToBeReset,
          Signal.modelReset])) ∧
    (∀ v : Bool, setFilterInstalledOnly qt srt chum m v =
      ({ m with
          m_filter_installed_only := v
          m_packages := projection qt srt chum { m with m_filter_installed_only := v } },
        [Signal.filterInstalledOnlyChanged, Signal.modelAboutToBeReset,
          Signal.modelReset])) ∧
    (∀ v : Bool, setFilterUpdatesOnly qt srt chum m v =
      ({ m with
          m_filter_updates_only := v
          m_packages := projection qt srt chum { m with m_filter_updates_only := v } },
        [Signal.filterUpdatesOnlyChanged, Signal.modelAboutToBeReset,
          Signal.modelReset])) ∧
    (∀ v : QString, v ≠ m.m_search → setSearch qt srt chum m v =
      ({ m with
          m_search := v
          m_packages := projection qt srt chum { m with m_search := v } },
        [Signal.searchChanged, Signal.modelAboutToBeReset, Signal.modelReset])) ∧
    (∀ s : QString, setShowCategory qt srt chum m s =
      ({ m with
          m_show_category := toSet (split 59 s)
          m_packages :=
            projection qt srt chum { m with m_show_category := toSet (split 59 s) } },
        [Signal.showCategoryChanged, Signal.modelAboutToBeReset, Signal.modelReset])) := by
  refine ⟨?_, ?_, ?_, ?_, ?_⟩
  · intro v
    unfold setFilterApplicationsOnly
    simp only []
    rw [reset_of_not_postponed qt srt chum _ (by exact hp)]
  · intro v
    unfold setFilterInstalledOnly
    simp only []
    rw [reset_of_not_postponed qt srt chum _ (by exact hp)]
  · intro v
    unfold setFilterUpdatesOnly
    simp only []
    rw [reset_of_not_postponed qt srt chum _ (by exact hp)]
  · intro v hv
    unfold setSearch
    simp only [hv, if_false]
    rw [reset_of_not_postponed qt srt chum _ (by exact hp)]
  · intro s
    unfold setShowCategory
    simp only []
    rw [reset_of_not_postponed qt srt chum _ (by exact hp)]

/-- C13 at the specification's scenario: over the registry with the desktop application `A`
(not installed) and the installed library `B`, applications-only gives the view `[A]`,
installed-only on top of it gives the empty view, and a new search string is stored and
announced. -/
theorem setters_rebuild_witness :
    emptyModel.m_postpone_loading = false ∧
    (setFilterApplicationsOnly basicQt (insertionSorter ChumPackage) scenarioChum
      emptyModel true).1.m_packages = [qs "A"] ∧
    (setFilterInstalledOnly basicQt (insertionSorter ChumPackage) scenarioChum
      applicationsOnlyModel true).1.m_packages = [] ∧
    setSearch basicQt (insertionSorter ChumPackage) scenarioChum emptyModel (qs "alpha") =
      ({ emptyModel with
          m_search := qs "alpha"
          m_packages := projection basicQt (insertionSorter ChumPackage) scenarioChum
            { emptyModel with m_search := qs "alpha" } },
        [Signal.searchChanged, Signal.modelAboutToBeReset, Signal.modelReset]) :=
  ⟨rfl,
    ((congrArg (fun r => r.1.m_packages)
      ((setters_rebuild basicQt (insertionSorter ChumPackage) scenarioChum emptyModel
        rfl).1 true)).trans (by decide)),
    ((congrArg (fun r => r.1.m_packages)
      ((setters_rebuild basicQt (insertionSorter ChumPackage) scenarioChum
        applicationsOnlyModel rfl).2.1 true)).trans (by decide)),
    (setters_rebuild basicQt (insertionSorter ChumPackage) scenarioChum emptyModel
      rfl).2.2.2.1 (qs "alpha") (by decide)⟩

/-- C14 at a failing input. The model was rebuilt over the scenario registry and
installed-only is off; `setFilterInstalledOnly(false)` sets the same value again, and the
function, which has no test like the one in `setSearch`, still emits the changed signal and
the two reset signals instead of doing nothing. -/
theorem setFilterInstalledOnly_identical_emits :
    (browsingModel scenarioChum).m_filter_installed_only = false ∧
    setFilterInstalledOnly basicQt (insertionSorter ChumPackage) scenarioChum
      (browsingModel scenarioChum) false ≠ (browsingModel scenarioChum, []) ∧
    setFilterInstalledOnly basicQt (insertionSorter ChumPackage) scenarioChum
      (browsingModel scenarioChum) false =
      (browsingModel scenarioChum,
        [Signal.filterInstalledOnlyChanged, Signal.modelAboutToBeReset,
          Signal.modelReset]) := by
  decide

/-- What the setters do when called with the value their field already has: `setSearch`
returns the state unchanged and emits nothing; the other four make no such test, emit their
changed signal and run `reset` (for `setShowCategory`, when the segments of the string are
the current set). -/
theorem setter_identical (qt : QtText) (srt : StdSort ChumPackage) (chum : Chum)
    (m : ChumPackagesModel) :
    setSearch qt srt chum m m.m_search = (m, []) ∧
    setFilterApplicationsOnly qt srt chum m m.m_filter_applications_only =
      ((reset qt srt chum m).1,
        Signal.filterApplicationsOnlyChanged :: (reset qt srt chum m).2) ∧
    setFilterInstalledOnly qt srt chum m m.m_filter_installed_only =
      ((reset qt srt chum m).1,
        Signal.filterInstalledOnlyChanged :: (reset qt srt chum m).2) ∧
    setFilterUpdatesOnly qt srt chum m m.m_filter_updates_only =
      ((reset qt srt chum m).1,
        Signal.filterUpdatesOnlyChanged :: (reset qt srt chum m).2) ∧
    (∀ s : QString, toSet (split 59 s) = m.m_show_category →
      setShowCategory qt srt chum m s =
        ((reset qt srt chum m).1,
          Signal.showCategoryChanged :: (reset qt srt chum m).2)) := by
  refine ⟨?_, rfl, rfl, rfl, ?_⟩
  · simp [setSearch]
  · intro s hs
    unfold setShowCategory
    simp only [hs]

theorem reset_keeps_configuration (qt : QtText) (srt : StdSort ChumPackage) (chum : Chum)
    (m : ChumPackagesModel) :
    (reset qt srt chum m).1.m_show_category = m.m_show_category ∧
    (reset qt srt chum m).1.m_search = m.m_search ∧
    (reset qt srt chum m).1.m_postpone_loading = m.m_postpone_loading ∧
    filterAccepts qt (reset qt srt chum m).1 = filterAccepts qt m := by
  cases hp : m.m_postpone_loading with
  | true => simp [reset, hp]
  | false =>
    rw [reset_of_not_postponed qt srt chum m hp]
    exact ⟨rfl, rfl, hp.symm ▸ rfl, rfl⟩

/-- C15 at a failing input. `setShowCategory("")` stores the set holding the empty string,
not the empty set of the non-empty segments, because the split keeps empty pieces; the
rebuild that follows therefore filters by category, and over the scenario registry the view
`[A, B]` becomes empty. -/
theorem setShowCategory_empty_string :
    ¬ sameSet
      (setShowCategory basicQt (insertionSorter ChumPackage) scenarioChum
        (browsingModel scenarioChum) (qs "")).1.m_show_category
      (nonEmptySegments (qs "")) ∧
    (setShowCategory basicQt (insertionSorter ChumPackage) scenarioChum
      (browsingModel scenarioChum) (qs "")).1.m_show_category = [[]] ∧
    (browsingModel scenarioChum).m_packages = [qs "A", qs "B"] ∧
    (setShowCategory basicQt (insertionSorter ChumPackage) scenarioChum
      (browsingModel scenarioChum) (qs "")).1.m_packages = [] := by
  refine ⟨?_, by decide, by decide, by decide⟩
  intro h
  have h1 : ([] : QString) ∈ (setShowCategory basicQt (insertionSorter ChumPackage)
      scenarioChum (browsingModel scenarioChum) (qs "")).1.m_show_category := by decide
  have h2 := (h []).1 h1
  revert h2
  decide

/-- What `setShowCategory` stores for every input string: the set of all segments of the
string split on `;`, the empty ones included. That set is never empty, so the rebuild that
follows filters by category and keeps only records that have one of the segments among
their categories. -/
theorem setShowCategory_segments (qt : QtText) (srt : StdSort ChumPackage) (chum : Chum)
    (m : ChumPackagesModel) (s : QString) :
    sameSet (setShowCategory qt srt chum m s).1.m_show_category (split 59 s) ∧
    (setShowCategory qt srt chum m s).1.m_show_category ≠ [] ∧
    (∀ p : ChumPackage, filterAccepts qt (setShowCategory qt srt chum m s).1 p = true →
      ∃ c, c ∈ split 59 s ∧ c ∈ p.categories) := by
  have hcfg := reset_keeps_configuration qt srt chum
    { m with m_show_category := toSet (split 59 s) }
  have hset : (setShowCategory qt srt chum m s).1.m_show_category = toSet (split 59 s) :=
    hcfg.1
  have hacc : filterAccepts qt (setShowCategory qt srt chum m s).1 =
      filterAccepts qt { m with m_show_category := toSet (split 59 s) } := hcfg.2.2.2
  have hne : toSet (split 59 s) ≠ [] := by
    intro h
    have h1 := split_ne_nil 59 s
    cases hs : split 59 s with
    | nil => exact h1 hs
    | cons t ts =>
      have hmem : t ∈ toSet (split 59 s) := by
        rw [hs]
        simp [toSet]
      rw [h] at hmem
      cases hmem
  refine ⟨?_, ?_, ?_⟩
  · intro x
    rw [hset]
    simp [toSet]
  · rw [hset]
    exact hne
  · intro p hp
    rw [hacc] at hp
    have hpass := (filterAccepts_iff_specPasses qt _ p).1 hp
    rcases hpass.2.2.2.1 with h | ⟨c, hc, hcp⟩
    · exact absurd h hne
    · exact ⟨c, by simpa [toSet] using hc, hcp⟩

/-- C16. Postpone suppresses rebuilds: while `m_postpone_loading` is set, `reset`, each of
the five configuration setters and `updatePackage` for every id and every role, the refresh
marker included, leave `m_packages` unchanged and emit neither reset signal. -/
theorem postpone_suppresses (qt : QtText) (srt : StdSort ChumPackage) (chum : Chum)
    (m : ChumPackagesModel) (hp : m.m_postpone_loading = true) :
    suppressed m (reset qt srt chum m) ∧
    (∀ v : Bool, suppressed m (setFilterApplicationsOnly qt srt chum m v)) ∧
    (∀ v : Bool, suppressed m (setFilterInstalledOnly qt srt chum m v)) ∧
    (∀ v : Bool, suppressed m (setFilterUpdatesOnly qt srt chum m v)) ∧
    (∀ v : QString, suppressed m (setSearch qt srt chum m v)) ∧
    (∀ s : QString, suppressed m (setShowCategory qt srt chum m s)) ∧
    (∀ (id : QString) (a : Role), suppressed m (updatePackage qt srt chum m id a)) := by
  have hreset : ∀ m1 : ChumPackagesModel, m1.m_postpone_loading = true →
      reset qt srt chum m1 = (m1, []) := by
    intro m1 h1
    simp [reset, h1]
  refine ⟨?_, ?_, ?_, ?_, ?_, ?_, ?_⟩
  · rw [hreset m hp]
    simp [suppressed]
  · intro v
    unfold setFilterApplicationsOnly
    simp only []
    rw [hreset _ (by exact hp)]
    simp [suppressed]
  · intro v
    unfold setFilterInstalledOnly
    simp only []
    rw [hreset _ (by exact hp)]
    simp [suppressed]
  · intro v
    unfold setFilterUpdatesOnly
    simp only []
    rw [hreset _ (by exact hp)]
    simp [suppressed]
  · intro v
    unfold setSearch
    by_cases hv : v = m.m_search
    · simp [hv, suppressed]
    · simp only [hv, if_false]
      rw [hreset _ (by exact hp)]
      simp [suppressed]
  · intro s
    unfold setShowCategory
    simp only []
    rw [hreset _ (by exact hp)]
    simp [suppressed]
  · intro id a
    unfold updatePackage
    rw [hreset m hp]
    simp only []
    split_ifs <;> simp [suppressed]

/-- C16 on a postponed model with the view `[B, A]`: the refresh marker, a rename and a
new search string all leave the view alone. -/
theorem postpone_suppresses_witness :
    postponedTwoRows.m_postpone_loading = true ∧
    suppressed postponedTwoRows
      (updatePackage basicQt (insertionSorter ChumPackage) scenarioChum postponedTwoRows
        (qs "A") Role.PackageRefreshRole) ∧
    suppressed postponedTwoRows
      (updatePackage basicQt (insertionSorter ChumPackage) scenarioChum postponedTwoRows
        (qs "A") Role.PackageNameRole) ∧
    suppressed postponedTwoRows
      (setSearch basicQt (insertionSorter ChumPackage) scenarioChum postponedTwoRows
        (qs "alpha")) :=
  ⟨rfl,
    (postpone_suppresses basicQt (insertionSorter ChumPackage) scenarioChum
      postponedTwoRows rfl).2.2.2.2.2.2 (qs "A") Role.PackageRefreshRole,
    (postpone_suppresses basicQt (insertionSorter ChumPackage) scenarioChum
      postponedTwoRows rfl).2.2.2.2.2.2 (qs "A") Role.PackageNameRole,
    (postpone_suppresses basicQt (insertionSorter ChumPackage) scenarioChum
      postponedTwoRows rfl).2.2.2.2.1 (qs "alpha")⟩

/-! ## Query terms and field boundaries -/

theorem split_of_not_mem (sep : QChar) (q : QString) (h : sep ∉ q) : split sep q = [q] := by
  induction q with
  | nil => rfl
  | cons c cs ih =>
    have hc : c ≠ sep := fun e => h (e ▸ List.mem_cons_self _ _)
    have hcs : sep ∉ cs := fun e => h (List.mem_cons_of_mem _ e)
    simp [split, hc, ih hcs]

theorem join_split (sep : QChar) (q : QString) : join sep (split sep q) = q := by
  induction q with
  | nil => rfl
  | cons c cs ih =>
    have hne := split_ne_nil sep cs
    cases hs : split sep cs with
    | nil => exact absurd hs hne
    | cons t ts =>
      rw [hs] at ih
      by_cases hc : c = sep
      · simp only [split, hc, if_true, hs]
        simp only [join]
        rw [ih]
        rfl
      · simp only [split, hc, if_false, hs]
        cases ts with
        | nil =>
          simp only [join] at ih ⊢
          rw [ih]
        | cons u us =>
          simp only [join] at ih ⊢
          rw [← ih]
          rfl

theorem not_mem_of_mem_split (sep : QChar) (q t : QString) (ht : t ∈ split sep q) :
    sep ∉ t := by
  induction q generalizing t with
  | nil =>
    simp only [split, List.mem_singleton] at ht
    subst ht
    simp
  | cons c cs ih =>
    have hne := split_ne_nil sep cs
    cases hs : split sep cs with
    | nil => exact absurd hs hne
    | cons u us =>
      rw [hs] at ih
      by_cases hc : c = sep
      · simp only [split, hc, if_true, hs, List.mem_cons] at ht
        rcases ht with rfl | ht
        · simp
        · exact ih t (List.mem_cons.2 ht)
      · simp only [split, hc, if_false, hs, List.mem_cons] at ht
        rcases ht with rfl | ht
        · intro hmem
          rcases List.mem_cons.1 hmem with h | h
          · exact hc h.symm
          · exact ih u (List.mem_cons_self _ _) h
        · exact ih t (List.mem_cons_of_mem _ ht)

/-- C17 as stated fails: for the record named "foo" with summary "bar" the queries "foo"
and "bar" are each accepted, but "foo\tbar" is tested as the single term "foo\tbar", which
the text does not contain, and is rejected. -/
theorem tab_query_counterexample :
    ¬ (searchFound basicQt (qs "foo" ++ qs "\t" ++ qs "bar") fooBarPackage = true ↔
        (searchFound basicQt (qs "foo") fooBarPackage = true ∧
          searchFound basicQt (qs "bar") fooBarPackage = true)) := by
  decide

/-- C17, amended. Query terms are delimited by the space character only: the matcher
accepts a record exactly when it finds every non-empty piece of the raw query between
spaces (code unit 32), each normalised and lowercased after the split; the pieces joined
by spaces give the query back and none contains a space. A tab does not delimit: for `t1`
and `t2` without a space the query `t1 ++ "\t" ++ t2` is tested as one term. -/
theorem terms_split_on_space (qt : QtText) (q : QString) (r : ChumPackage) :
    (searchFound qt q r = true ↔
      ∀ t ∈ split 32 q, t ≠ [] →
        (indexIn qt (qt.toLower (qt.normalizedKC t)) (searchText qt r) != -1) = true) ∧
    join 32 (split 32 q) = q ∧
    (∀ t ∈ split 32 q, 32 ∉ t) ∧
    (∀ t1 t2 : QString, 32 ∉ t1 → 32 ∉ t2 →
      searchFound qt (t1 ++ qs "\t" ++ t2) r =
        (indexIn qt (qt.toLower (qt.normalizedKC (t1 ++ qs "\t" ++ t2)))
          (searchText qt r) != -1)) := by
  refine ⟨?_, join_split 32 q, fun t ht => not_mem_of_mem_split 32 q t ht, ?_⟩
  · rw [searchFound_eq_all, List.all_eq_true]
    simp only [splitSkipEmptyParts, List.mem_filter]
    constructor
    · intro h t ht hne
      refine h t ⟨ht, ?_⟩
      cases t with
      | nil => exact absurd rfl hne
      | cons a as => rfl
    · rintro h t ⟨ht, hne⟩
      refine h t ht ?_
      intro he
      subst he
      simp at hne
  · intro t1 t2 h1 h2
    have htab : qs "\t" = [9] := by decide
    have hmem : (32 : Nat) ∉ t1 ++ qs "\t" ++ t2 := by
      rw [htab]
      simp [h1, h2]
    have hne : (t1 ++ qs "\t" ++ t2).isEmpty = false := by
      rw [htab]
      cases t1 <;> rfl
    rw [searchFound_eq_all]
    unfold splitSkipEmptyParts
    rw [split_of_not_mem 32 _ hmem]
    simp only [List.filter, hne, Bool.not_false, List.all_cons, List.all_nil, Bool.and_true]

/-- The amended C17 for "foo" and "bar": the query "foo\tbar" is one term. -/
theorem terms_split_on_space_witness :
    searchFound basicQt (qs "foo" ++ qs "\t" ++ qs "bar") fooBarPackage =
      (indexIn basicQt
        (basicQt.toLower (basicQt.normalizedKC (qs "foo" ++ qs "\t" ++ qs "bar")))
        (searchText basicQt fooBarPackage) != -1) :=
  (terms_split_on_space basicQt (qs "foo") fooBarPackage).2.2.2 (qs "foo") (qs "bar")
    (by decide) (by decide)

theorem occurs_of_append_sep (sep : Nat) (a b pat pre post : List Nat)
    (h : a ++ sep :: b = pre ++ pat ++ post) (hsep : sep ∉ pat) :
    (∃ pre2 post2, a = pre2 ++ pat ++ post2) ∨ (∃ pre2 post2, b = pre2 ++ pat ++ post2) := by
  rw [List.append_assoc] at h
  rcases List.append_eq_append_iff.1 h with ⟨a2, hpre, hrest⟩ | ⟨c2, ha, hrest⟩
  · cases a2 with
    | nil =>
      cases pat with
      | nil => exact Or.inr ⟨[], b, rfl⟩
      | cons x xs =>
        simp only [List.nil_append, List.cons_append, List.cons.injEq] at hrest
        exact absurd (hrest.1 ▸ List.mem_cons_self _ _) hsep
    | cons y ys =>
      simp only [List.cons_append, List.cons.injEq] at hrest
      exact Or.inr ⟨ys, post, by rw [hrest.2, List.append_assoc]⟩
  · rcases List.append_eq_append_iff.1 hrest with ⟨d, hc2, _⟩ | ⟨d, hpat, hd⟩
    · exact Or.inl ⟨pre, d, by rw [ha, hc2, List.append_assoc]⟩
    · cases d with
      | nil =>
        simp only [List.append_nil] at hpat
        subst hpat
        exact Or.inl ⟨pre, [], by rw [ha, List.append_nil]⟩
      | cons y ys =>
        simp only [List.cons_append, List.cons.injEq] at hd
        exfalso
        apply hsep
        rw [hpat, ← hd.1]
        simp

theorem occurs_of_join (sep : Nat) (pat : List Nat) (hsep : sep ∉ pat) (fs : List QString)
    (hne : fs ≠ []) (h : ∃ pre post, join sep fs = pre ++ pat ++ post) :
    ∃ f ∈ fs, ∃ pre post, f = pre ++ pat ++ post := by
  induction fs with
  | nil => exact absurd rfl hne
  | cons f rest ih =>
    cases rest with
    | nil =>
      simp only [join] at h
      exact ⟨f, List.mem_cons_self _ _, h⟩
    | cons g gs =>
      obtain ⟨pre, post, hj⟩ := h
      simp only [join] at hj
      rcases occurs_of_append_sep sep f _ pat pre post hj hsep with hf | hg
      · exact ⟨f, List.mem_cons_self _ _, hf⟩
      · obtain ⟨x, hx, hocc⟩ := ih (by simp) hg
        exact ⟨x, List.mem_cons_of_mem _ hx, hocc⟩

theorem foldUnits_join (qt : QtText)
    (hfold : ∀ a b : QString,
      foldUnits qt none (a ++ 10 :: b) = foldUnits qt none a ++ 10 :: foldUnits qt none b)
    (fs : List QString) :
    foldUnits qt none (join 10 fs) = join 10 (fs.map (foldUnits qt none)) := by
  induction fs with
  | nil => rfl
  | cons f rest ih =>
    cases rest with
    | nil => rfl
    | cons g gs =>
      simp only [join, List.map_cons] at ih ⊢
      rw [hfold, ih]

theorem map_join (g : Nat → Nat) (sep : Nat) (hg : g sep = sep) (fs : List QString) :
    (join sep fs).map g = join sep (fs.map (fun f => f.map g)) := by
  induction fs with
  | nil => rfl
  | cons f rest ih =>
    cases rest with
    | nil => rfl
    | cons h hs =>
      simp only [join, List.map_cons, List.map_append] at ih ⊢
      rw [hg, ih]

theorem foldUnits_basicQt (prev : Option QChar) (s : QString) :
    foldUnits basicQt prev s = s.map foldUnit := by
  induction s generalizing prev with
  | nil => rfl
  | cons c cs ih =>
    show foldUnit c :: foldUnits basicQt (some c) cs = foldUnit c :: cs.map foldUnit
    rw [ih]

theorem basicQt_normalises_fieldwise (fs : List QString) :
    basicQt.toLower (basicQt.normalizedKC (join 10 fs)) =
      join 10 (fs.map (fun f => basicQt.toLower (basicQt.normalizedKC f))) :=
  map_join lowerUnit 10 (by decide) fs

theorem basicQt_folds_fieldwise (a b : QString) :
    foldUnits basicQt none (a ++ 10 :: b) =
      foldUnits basicQt none a ++ 10 :: foldUnits basicQt none b := by
  simp only [foldUnits_basicQt, List.map_append, List.map_cons]
  rfl

/-- C18 as stated fails: the fields are joined by a newline and the query is split at
spaces only, so for the query "foo\nbar" the one term contains the separator; it is found
in the text of the record named "foo" with summary "bar", across the boundary of the two
fields, while no single field contains a newline. -/
theorem matchesInsideField_counterexample :
    ¬ matchesInsideField basicQt (qs "foo\nbar") fooBarPackage ∧
    searchFound basicQt (qs "foo\nbar") fooBarPackage = true ∧
    (∀ f ∈ searchFields fooBarPackage,
      10 ∉ basicQt.toLower (basicQt.normalizedKC f)) := by
  refine ⟨?_, by decide, by decide⟩
  intro h
  have hterm : qs "foo\nbar" ∈ queryTerms basicQt (qs "foo\nbar") := by decide
  have h1 := (h _ hterm).1
  revert h1
  decide

theorem not_mem_foldUnits (qt : QtText)
    (hnl : ∀ (prev : Option QChar) (c : QChar), qt.foldCase prev c = 10 → c = 10)
    (prev : Option QChar) (s : QString) (hs : 10 ∉ s) : 10 ∉ foldUnits qt prev s := by
  induction s generalizing prev with
  | nil => simp [foldUnits]
  | cons c cs ih =>
    intro hmem
    simp only [foldUnits, List.mem_cons] at hmem
    rcases hmem with h | h
    · exact hs (by rw [hnl prev c h.symm]; exact List.mem_cons_self _ _)
    · exact ih (some c) (fun hc => hs (List.mem_cons_of_mem _ hc)) h

theorem basicQt_folds_only_newline (prev : Option QChar) (c : Nat)
    (h : basicQt.foldCase prev c = 10) : c = 10 := by
  have h1 : (if 65 ≤ c ∧ c ≤ 90 then c + 32 else if c = 962 then 963 else c : Nat) = 10 := h
  split_ifs at h1 <;> omega

/-- C18, amended. The fields are joined by a newline, which a term derived from the query
may contain. Where normalisation and lowercasing act on each field separately and keep the
newline, and case folding does so too and folds no other code unit to the newline (as
those of Qt do), a term that contains no newline and is found in the searchable text
occurs, up to the case folding of the comparison, inside a single one of the normalised
fields name, summary, space-joined categories, developer and description. -/
theorem term_inside_one_field (qt : QtText)
    (hnorm : ∀ fs : List QString,
      qt.toLower (qt.normalizedKC (join 10 fs)) =
        join 10 (fs.map (fun f => qt.toLower (qt.normalizedKC f))))
    (hfold : ∀ a b : QString,
      foldUnits qt none (a ++ 10 :: b) = foldUnits qt none a ++ 10 :: foldUnits qt none b)
    (hnl : ∀ (prev : Option QChar) (c : QChar), qt.foldCase prev c = 10 → c = 10)
    (q : QString) (r : ChumPackage) :
    ∀ t ∈ queryTerms qt q, 10 ∉ t →
      (indexIn qt t (searchText qt r) != -1) = true →
      ∃ f ∈ searchFields r, ∃ pre post,
        foldUnits qt none (qt.toLower (qt.normalizedKC f)) =
          pre ++ foldUnits qt none t ++ post := by
  intro t _ hsep hfound
  have hsepFolded : 10 ∉ foldUnits qt none t := not_mem_foldUnits qt hnl none t hsep
  have hocc := (indexIn_found_iff qt t (searchText qt r)).1 hfound
  have htext : foldUnits qt none (searchText qt r) =
      join 10 ((searchFields r).map
        (fun f => foldUnits qt none (qt.toLower (qt.normalizedKC f)))) := by
    have h1 : searchText qt r = qt.toLower (qt.normalizedKC (join 10 (searchFields r))) :=
      rfl
    rw [h1, hnorm, foldUnits_join qt hfold, List.map_map]
    rfl
  rw [htext] at hocc
  obtain ⟨x, hx, hin⟩ := occurs_of_join 10 _ hsepFolded _ (by simp [searchFields]) hocc
  obtain ⟨f, hf, rfl⟩ := List.mem_map.1 hx
  exact ⟨f, hf, hin⟩

/-- The amended C18 for the query "foo bar" and the record named "foo" with summary "bar":
the term "bar" contains no newline, is found in the text, and lies inside one field. -/
theorem term_inside_one_field_witness :
    (10 : Nat) ∉ qs "bar" ∧
    (indexIn basicQt (qs "bar") (searchText basicQt fooBarPackage) != -1) = true ∧
    ∃ f ∈ searchFields fooBarPackage, ∃ pre post,
      foldUnits basicQt none (basicQt.toLower (basicQt.normalizedKC f)) =
        pre ++ foldUnits basicQt none (qs "bar") ++ post :=
  ⟨by decide, by decide,
    term_inside_one_field basicQt basicQt_normalises_fieldwise basicQt_folds_fieldwise
      basicQt_folds_only_newline (qs "foo bar") fooBarPackage (qs "bar") (by decide)
      (by decide) (by decide)⟩

theorem splitSkipEmptyParts_spaces (s : QString) (hs : ∀ c ∈ s, c = 32) :
    splitSkipEmptyParts 32 s = [] := by
  induction s with
  | nil => rfl
  | cons c cs ih =>
    have hc : c = 32 := hs c (List.mem_cons_self _ _)
    have hcs := ih (fun x hx => hs x (List.mem_cons_of_mem _ hx))
    unfold splitSkipEmptyParts at hcs ⊢
    simp only [split, hc, if_true]
    rw [List.filter_cons]
    simpa using hcs

/-- C19. A query without terms matches everything: when `m_search` is empty or made of
spaces only, the matcher accepts every record, and `reset` gives the same `m_packages` as
it gives with `m_search` empty. -/
theorem reset_blank_search (qt : QtText) (srt : StdSort ChumPackage) (chum : Chum)
    (m : ChumPackagesModel) (hs : ∀ c ∈ m.m_search, c = 32) :
    (∀ p : ChumPackage, searchFound qt m.m_search p = true) ∧
    (reset qt srt chum m).1.m_packages =
      (reset qt srt chum { m with m_search := [] }).1.m_packages := by
  have hfound : ∀ p : ChumPackage, searchFound qt m.m_search p = true := by
    intro p
    unfold searchFound
    rw [splitSkipEmptyParts_spaces m.m_search hs]
    rfl
  refine ⟨hfound, ?_⟩
  have hacc : filterAccepts qt m = filterAccepts qt { m with m_search := [] } := by
    funext p
    unfold filterAccepts
    simp [hfound p]
  cases hp : m.m_postpone_loading with
  | true => simp [reset, hp]
  | false => simp [reset, hp, sortedPackages, hacc]

/-- C19 for a search string of two spaces over the scenario registry. -/
theorem reset_blank_search_witness :
    (∀ c ∈ ({ emptyModel with m_search := qs "  " } : ChumPackagesModel).m_search, c = 32) ∧
    (reset basicQt (insertionSorter ChumPackage) scenarioChum
      { emptyModel with m_search := qs "  " }).1.m_packages =
      (reset basicQt (insertionSorter ChumPackage) scenarioChum
        { emptyModel with m_search := [] }).1.m_packages :=
  ⟨by decide,
    (reset_blank_search basicQt (insertionSorter ChumPackage) scenarioChum
      { emptyModel with m_search := qs "  " } (by decide)).2⟩

/-- C20 as stated fails while loading is postponed: the registry is not busy, the view is
`[B, A]` and the postpone flag is set; `updatePackage(A, refresh marker)` calls `reset`,
which returns at once, so the state is unchanged and nothing is emitted, where a full
rebuild would give the view `[A, B]` and the reset signals. -/
theorem updatePackage_refresh_counterexample :
    scenarioChum.busy = false ∧
    updatePackage basicQt (insertionSorter ChumPackage) scenarioChum postponedTwoRows
      (qs "A") Role.PackageRefreshRole = (postponedTwoRows, []) ∧
    updatePackage basicQt (insertionSorter ChumPackage) scenarioChum postponedTwoRows
      (qs "A") Role.PackageRefreshRole ≠
      fullRebuild basicQt (insertionSorter ChumPackage) scenarioChum postponedTwoRows := by
  decide

/-- C20, amended. Bulk-refresh marker handling: for every state and package id,
`updatePackage(id, refresh marker)` returns the state unchanged and emits nothing while the
registry reports busy, and calls `reset` when the registry is not busy, whatever the
configuration and whether or not the id is in `m_packages`; with loading not postponed
that call is a full rebuild. -/
theorem updatePackage_refresh (qt : QtText) (srt : StdSort ChumPackage) (chum : Chum)
    (m : ChumPackagesModel) (id : QString) :
    (chum.busy = true →
      updatePackage qt srt chum m id Role.PackageRefreshRole = (m, [])) ∧
    (chum.busy = false →
      updatePackage qt srt chum m id Role.PackageRefreshRole = reset qt srt chum m) ∧
    (chum.busy = false → m.m_postpone_loading = false →
      updatePackage qt srt chum m id Role.PackageRefreshRole =
        fullRebuild qt srt chum m) := by
  have hnb : chum.busy = false →
      updatePackage qt srt chum m id Role.PackageRefreshRole = reset qt srt chum m := by
    intro hb
    simp [updatePackage, roles, hb]
  refine ⟨?_, hnb, ?_⟩
  · intro hb
    simp [updatePackage, roles, hb]
  · intro hb hp
    rw [hnb hb, reset_of_not_postponed qt srt chum m hp]
    rfl

/-- The amended C20 over the scenario registry, busy and not busy, for an id that is not in
the view. -/
theorem updatePackage_refresh_witness :
    updatePackage basicQt (insertionSorter ChumPackage) busyChum applicationsOnlyModel
      (qs "gone") Role.PackageRefreshRole = (applicationsOnlyModel, []) ∧
    updatePackage basicQt (insertionSorter ChumPackage) scenarioChum applicationsOnlyModel
      (qs "gone") Role.PackageRefreshRole =
      reset basicQt (insertionSorter ChumPackage) scenarioChum applicationsOnlyModel ∧
    updatePackage basicQt (insertionSorter ChumPackage) scenarioChum applicationsOnlyModel
      (qs "gone") Role.PackageRefreshRole =
      fullRebuild basicQt (insertionSorter ChumPackage) scenarioChum applicationsOnlyModel :=
  ⟨(updatePackage_refresh basicQt (insertionSorter ChumPackage) busyChum
      applicationsOnlyModel (qs "gone")).1 rfl,
    (updatePackage_refresh basicQt (insertionSorter ChumPackage) scenarioChum
      applicationsOnlyModel (qs "gone")).2.1 rfl,
    (updatePackage_refresh basicQt (insertionSorter ChumPackage) scenarioChum
      applicationsOnlyModel (qs "gone")).2.2 rfl rfl⟩


/-! ## The view as a part of the registry -/

theorem projection_perm (qt : QtText) (srt : StdSort ChumPackage) (chum : Chum)
    (m : ChumPackagesModel) :
    (projection qt srt chum m).Perm
      ((chum.packages.filter (filterAccepts qt m)).map (fun p => p.id)) :=
  (srt.perm _ _).map _

theorem mem_projection (qt : QtText) (srt : StdSort ChumPackage) (chum : Chum)
    (m : ChumPackagesModel) (id : QString) :
    id ∈ projection qt srt chum m ↔
      ∃ p ∈ chum.packages, filterAccepts qt m p = true ∧ p.id = id := by
  rw [(projection_perm qt srt chum m).mem_iff, List.mem_map]
  simp only [List.mem_filter, and_assoc]

/-- C21 as stated fails while loading is postponed: the view `[B, A]` was built while the
registry held `A` and `B`; with the postpone flag set, `B` leaves the registry and `reset`
returns at once, so after `reset` the view has two ids over a registry of one record, and
`B` is the id of no registry record. -/
theorem subCollection_counterexample :
    shrunkChum.uniqueIds ∧
    (reset basicQt (insertionSorter ChumPackage) shrunkChum postponedTwoRows).1.m_packages =
      [qs "B", qs "A"] ∧
    ¬ subCollection shrunkChum
      (reset basicQt (insertionSorter ChumPackage) shrunkChum postponedTwoRows).1.m_packages := by
  refine ⟨by decide, by decide, ?_⟩
  intro h
  have hlen := h.2.2
  revert hlen
  decide

/-- C21, amended. For every registry whose records have pairwise distinct ids and every
configuration, with loading not postponed, after `reset` the list `m_packages` contains no
id twice, every id in it is the id of a registry record, and its length is at most the
number of registry records; so an id stands at one index only, and that index is the row
`indexOf` gives for a single-row patch. -/
theorem reset_subCollection (qt : QtText) (srt : StdSort ChumPackage) (chum : Chum)
    (m : ChumPackagesModel) (hu : chum.uniqueIds) (hp : m.m_postpone_loading = false) :
    subCollection chum (reset qt srt chum m).1.m_packages ∧
    (∀ (id : QString) (i : Nat), (reset qt srt chum m).1.m_packages[i]? = some id →
      indexOf (reset qt srt chum m).1.m_packages id = (i : Int)) := by
  have hreset : (reset qt srt chum m).1.m_packages = projection qt srt chum m := by
    rw [reset_of_not_postponed qt srt chum m hp]
  rw [hreset]
  have hperm := projection_perm qt srt chum m
  have hsub : ((chum.packages.filter (filterAccepts qt m)).map (fun p => p.id)).Sublist
      (chum.packages.map (fun p => p.id)) :=
    (List.filter_sublist chum.packages).map _
  have hnodup : (projection qt srt chum m).Nodup :=
    hperm.nodup_iff.2 (List.Nodup.sublist hsub hu)
  refine ⟨⟨hnodup, ?_, ?_⟩, ?_⟩
  · intro id hid
    obtain ⟨p, hpm, _, hpid⟩ := (mem_projection qt srt chum m id).1 hid
    exact ⟨p, hpm, hpid⟩
  · rw [hperm.length_eq, List.length_map]
    exact List.length_filter_le _ _
  · intro id i hi
    refine indexOf_eq_of_first _ id i hi ?_
    intro j hj hjid
    have hjlen : j < (projection qt srt chum m).length := by
      rcases List.getElem?_eq_some.1 hjid with ⟨h, _⟩
      exact h
    have hij := List.getElem?_inj hjlen hnodup (hjid.trans hi.symm)
    omega

/-- The amended C21 over the scenario registry with no filter: the view is a duplicate-free
part of the registry and `B` stands at row 1 only. -/
theorem reset_subCollection_witness :
    scenarioChum.uniqueIds ∧ emptyModel.m_postpone_loading = false ∧
    subCollection scenarioChum
      (reset basicQt (insertionSorter ChumPackage) scenarioChum emptyModel).1.m_packages ∧
    indexOf (reset basicQt (insertionSorter ChumPackage) scenarioChum emptyModel).1.m_packages
      (qs "B") = ((1 : Nat) : Int) :=
  ⟨by decide, rfl,
    (reset_subCollection basicQt (insertionSorter ChumPackage) scenarioChum emptyModel
      (by decide) rfl).1,
    (reset_subCollection basicQt (insertionSorter ChumPackage) scenarioChum emptyModel
      (by decide) rfl).2 (qs "B") 1 (by decide)⟩

theorem searchFound_of_appended (qt : QtText) (q t : QString) (r : ChumPackage)
    (h : searchFound qt (q ++ qs " " ++ t) r = true) : searchFound qt q r = true := by
  have hq : q ++ qs " " ++ t = q ++ 32 :: t := by
    simp [qs]
  rw [hq, searchFound_eq_all, splitSkipEmptyParts_append_sep, List.all_append,
    Bool.and_eq_true] at h
  rw [searchFound_eq_all]
  exact h.1

theorem mem_reset_of_narrower (qt : QtText) (srt : StdSort ChumPackage) (chum : Chum)
    (m m2 : ChumPackagesModel) (hpk : m2.m_packages = m.m_packages)
    (hpp : m2.m_postpone_loading = m.m_postpone_loading)
    (hacc : ∀ p : ChumPackage, filterAccepts qt m2 p = true → filterAccepts qt m p = true)
    (id : QString) (hid : id ∈ (reset qt srt chum m2).1.m_packages) :
    id ∈ (reset qt srt chum m).1.m_packages := by
  cases hp : m.m_postpone_loading with
  | true =>
    have hp2 : m2.m_postpone_loading = true := hpp.trans hp
    simp only [reset, hp, hp2, if_true] at hid ⊢
    rw [← hpk]
    exact hid
  | false =>
    have hp2 : m2.m_postpone_loading = false := hpp.trans hp
    rw [reset_of_not_postponed qt srt chum m2 hp2] at hid
    rw [reset_of_not_postponed qt srt chum m hp]
    obtain ⟨p, hpm, hpa, hpid⟩ := (mem_projection qt srt chum m2 id).1 hid
    exact (mem_projection qt srt chum m id).2 ⟨p, hpm, hacc p hpa, hpid⟩

/-- C22. Filters only narrow the view: for every registry and every state, when the
configuration is changed only by setting applications-only, installed-only or updates-only,
or by appending a space and a further term to the search string, every id in `m_packages`
after `reset` under the changed configuration is in `m_packages` after `reset` under the
original one. -/
theorem filters_narrow (qt : QtText) (srt : StdSort ChumPackage) (chum : Chum)
    (m : ChumPackagesModel) :
    (∀ id ∈ (reset qt srt chum { m with m_filter_applications_only := true }).1.m_packages,
      id ∈ (reset qt srt chum m).1.m_packages) ∧
    (∀ id ∈ (reset qt srt chum { m with m_filter_installed_only := true }).1.m_packages,
      id ∈ (reset qt srt chum m).1.m_packages) ∧
    (∀ id ∈ (reset qt srt chum { m with m_filter_updates_only := true }).1.m_packages,
      id ∈ (reset qt srt chum m).1.m_packages) ∧
    (∀ t : QString,
      ∀ id ∈ (reset qt srt chum { m with m_search := m.m_search ++ qs " " ++ t }).1.m_packages,
        id ∈ (reset qt srt chum m).1.m_packages) := by
  refine ⟨?_, ?_, ?_, ?_⟩
  · intro id hid
    have hacc : ∀ p : ChumPackage,
        filterAccepts qt { m with m_filter_applications_only := true } p = true →
        filterAccepts qt m p = true := by
      intro p hp
      have h := (filterAccepts_iff_specPasses qt _ p).1 hp
      refine (filterAccepts_iff_specPasses qt m p).2
        ⟨?_, h.2.1, h.2.2.1, h.2.2.2.1, h.2.2.2.2⟩
      rcases h.1 with h1 | h1
      · exact absurd rfl h1
      · exact Or.inr h1
    exact mem_reset_of_narrower qt srt chum m { m with m_filter_applications_only := true }
      rfl rfl hacc id hid
  · intro id hid
    have hacc : ∀ p : ChumPackage,
        filterAccepts qt { m with m_filter_installed_only := true } p = true →
        filterAccepts qt m p = true := by
      intro p hp
      have h := (filterAccepts_iff_specPasses qt _ p).1 hp
      refine (filterAccepts_iff_specPasses qt m p).2
        ⟨h.1, ?_, h.2.2.1, h.2.2.2.1, h.2.2.2.2⟩
      rcases h.2.1 with h1 | h1
      · exact absurd rfl h1
      · exact Or.inr h1
    exact mem_reset_of_narrower qt srt chum m { m with m_filter_installed_only := true }
      rfl rfl hacc id hid
  · intro id hid
    have hacc : ∀ p : ChumPackage,
        filterAccepts qt { m with m_filter_updates_only := true } p = true →
        filterAccepts qt m p = true := by
      intro p hp
      have h := (filterAccepts_iff_specPasses qt _ p).1 hp
      refine (filterAccepts_iff_specPasses qt m p).2
        ⟨h.1, h.2.1, ?_, h.2.2.2.1, h.2.2.2.2⟩
      rcases h.2.2.1 with h1 | h1
      · exact absurd rfl h1
      · exact Or.inr h1
    exact mem_reset_of_narrower qt srt chum m { m with m_filter_updates_only := true }
      rfl rfl hacc id hid
  · intro t id hid
    have hacc : ∀ p : ChumPackage,
        filterAccepts qt { m with m_search := m.m_search ++ qs " " ++ t } p = true →
        filterAccepts qt m p = true := by
      intro p hp
      have h := (filterAccepts_iff_specPasses qt _ p).1 hp
      refine (filterAccepts_iff_specPasses qt m p).2
        ⟨h.1, h.2.1, h.2.2.1, h.2.2.2.1, ?_⟩
      rcases h.2.2.2.2 with h1 | h1
      · exfalso
        have h2 : m.m_search ++ qs " " ++ t = [] := h1
        simp [qs] at h2
      · exact Or.inr (searchFound_of_appended qt m.m_search t p h1)
    exact mem_reset_of_narrower qt srt chum m
      { m with m_search := m.m_search ++ qs " " ++ t } rfl rfl hacc id hid

/-- C22 over the scenario registry: `A`, in the view under applications-only, is in the
view without the filter; and the browser package, in the view for the search "web
browser", is in the view for the search "web". -/
theorem filters_narrow_witness :
    qs "A" ∈ (reset basicQt (insertionSorter ChumPackage) scenarioChum
      emptyModel).1.m_packages ∧
    qs "browser" ∈ (reset basicQt (insertionSorter ChumPackage) ⟨[browserPackage], false⟩
      { emptyModel with m_search := qs "web" }).1.m_packages :=
  ⟨(filters_narrow basicQt (insertionSorter ChumPackage) scenarioChum emptyModel).1
      (qs "A") (by decide),
    (filters_narrow basicQt (insertionSorter ChumPackage) ⟨[browserPackage], false⟩
      { emptyModel with m_search := qs "web" }).2.2.2 (qs "browser") (qs "browser")
      (by decide)⟩

end ChumGui
